import Mathlib

/-!
# BankParser — verification of the statement-extraction engine

A shallow embedding, in Lean 4, of the core of the BankParser repository:

* `app/services/llm/base.py` — `BaseLLMService`: resilient JSON recovery
  (`_parse_response_json` and its helpers), chunk merging (`_merge_chunks`),
  pagination (`_paginate_and_collect`), conversion to the canonical model
  (`_convert_to_bank_statement`), and the public entry points
  (`parse_text_statement`, `parse_image_statement`).
* `app/services/parser_service.py` — `BankStatementParserService.parse_statement`,
  the orchestrator that wraps everything into a `ParsedResponse`.
* `app/models.py` — the `Transaction`, `BankStatement` and `ParsedResponse` models.

Modelling conventions:

* Python dictionaries holding JSON-like data are association lists
  (`Obj := List (String × JVal)`) with Python-dict semantics: lookup finds the
  first matching key, assignment updates the first occurrence in place or
  appends a new entry at the end, `pop` removes the key.  Real dicts have
  unique keys, so these operations coincide with finite-map semantics.
* Python numbers (`int` / `float`) are modelled as exact rationals `ℚ`.  The
  engine only compares and copies numbers, never rounds, so exact arithmetic
  is faithful for everything proved here.
* Raising an exception is modelled by `Except String`; the error message text
  is not meant to reproduce CPython's wording, only which computations fail.
* `asyncio` coroutines are modelled as pure functions: every await in the
  source is strictly sequential, so the async layer is behaviourally inert.
* Provider adapters (`_single_text_call` / `_single_image_call`) are opaque
  collaborators and enter the model as function parameters.
-/

set_option maxRecDepth 10000

namespace BankParser

/-! ## Characters used by the scanners, named to keep the source readable -/

def quoteChar : Char := Char.ofNat 34
def apostropheChar : Char := Char.ofNat 39
def backslashChar : Char := Char.ofNat 92
def backtickChar : Char := Char.ofNat 96
def lbraceChar : Char := Char.ofNat 123
def rbraceChar : Char := Char.ofNat 125
def lbrackChar : Char := Char.ofNat 91
def rbrackChar : Char := Char.ofNat 93

/-! ## JSON-like dynamic values (the `Any` of the Python source) -/

/-- A Python value as produced by `json.loads`: `None`, `bool`, `int`/`float`
(as `ℚ`), `str`, `list`, `dict`. -/
inductive JVal where
  | null : JVal
  | bool (b : Bool) : JVal
  | num (q : ℚ) : JVal
  | str (s : String) : JVal
  | arr (elems : List JVal) : JVal
  | obj (entries : List (String × JVal)) : JVal
deriving Repr

/-- A Python dict holding JSON-like data (`Dict[str, Any]`). -/
abbrev Obj := List (String × JVal)

/-- `d.get(key)` / `key in d`: first occurrence wins (keys are unique in a real
dict). -/
def objGet : Obj → String → Option JVal
  | [], _ => none
  | (k, v) :: rest, key => if k = key then some v else objGet rest key

/-- `d.get(key, default)`. -/
def objGetD (o : Obj) (key : String) (dflt : JVal) : JVal :=
  (objGet o key).getD dflt

/-- `d[key]` on the read side: `KeyError` when absent. -/
def objGetReq (o : Obj) (key : String) : Except String JVal :=
  match objGet o key with
  | some v => .ok v
  | none => .error ("KeyError: " ++ key)

/-- `d[key] = v`: update the first occurrence in place, else append. -/
def objSet : Obj → String → JVal → Obj
  | [], key, v => [(key, v)]
  | (k, w) :: rest, key, v =>
      if k = key then (k, v) :: rest else (k, w) :: objSet rest key v

/-- `d.pop(key, None)`: drop the key (all occurrences; a real dict has one). -/
def objErase : Obj → String → Obj
  | [], _ => []
  | (k, w) :: rest, key =>
      if k = key then objErase rest key else (k, w) :: objErase rest key

/-- Python truthiness (`bool(x)`) on JSON-like values. -/
def truthy : JVal → Bool
  | .null => false
  | .bool b => b
  | .num q => q != 0
  | .str s => s != ""
  | .arr elems => !elems.isEmpty
  | .obj entries => !entries.isEmpty

/-! ## `float(...)` coercion -/

/-- Digits of a string interpreted in base 10 (helper for `pyFloatOfString`). -/
def natOfDigits : List Char → Nat
  | [] => 0
  | c :: rest => natOfDigits rest + c.toNat % 48 * 10 ^ rest.length

/-- Models CPython `float(str)` for the common shapes the engine can meet:
optional surrounding whitespace, optional sign, digits with an optional
fractional part.  Exotic accepted forms (`"inf"`, `"nan"`, exponents,
underscore separators) are modelled as failures; no claim depends on them. -/
def pyFloatOfString (s : String) : Except String ℚ :=
  let core := ((s.data.dropWhile (fun c => c.isWhitespace)).reverse.dropWhile
      (fun c => c.isWhitespace)).reverse
  let (sign, body) :=
    match core with
    | '-' :: rest => ((-1 : ℚ), rest)
    | '+' :: rest => ((1 : ℚ), rest)
    | other => ((1 : ℚ), other)
  let intDigits := body.takeWhile (fun c => c.isDigit)
  let afterInt := body.dropWhile (fun c => c.isDigit)
  match afterInt with
  | [] =>
      if intDigits = [] then .error "ValueError: could not convert string to float"
      else .ok (sign * (natOfDigits intDigits : ℚ))
  | '.' :: fracPart =>
      let fracDigits := fracPart.takeWhile (fun c => c.isDigit)
      if fracPart.dropWhile (fun c => c.isDigit) ≠ [] then
        .error "ValueError: could not convert string to float"
      else if intDigits = [] ∧ fracDigits = [] then
        .error "ValueError: could not convert string to float"
      else
        .ok (sign * ((natOfDigits intDigits : ℚ) +
          (natOfDigits fracDigits : ℚ) / (10 ^ fracDigits.length : ℚ)))
  | _ => .error "ValueError: could not convert string to float"

/-- Models CPython `float(x)` on a JSON-like value: numbers pass through,
bools coerce to 0/1, strings are parsed, everything else is a `TypeError`. -/
def pyFloat : JVal → Except String ℚ
  | .num q => .ok q
  | .bool b => .ok (if b then 1 else 0)
  | .str s => pyFloatOfString s
  | _ => .error "TypeError: float() argument"

/-! ## Deduplication keys (`_merge_chunks`) -/

/-- A hashable scalar as used in the dedupe key; Python's cross-type equality
`True == 1 == 1.0` is captured by normalising `bool` into `num`. -/
inductive HVal where
  | null : HVal
  | num (q : ℚ) : HVal
  | str (s : String) : HVal
deriving Repr, DecidableEq

/-- Hashable view of a JSON-like value (`set` membership needs hashing;
lists/dicts raise `TypeError: unhashable type`). -/
def toHashable : JVal → Except String HVal
  | .null => .ok .null
  | .bool b => .ok (.num (if b then 1 else 0))
  | .num q => .ok (.num q)
  | .str s => .ok (.str s)
  | .arr _ => .error "TypeError: unhashable type"
  | .obj _ => .error "TypeError: unhashable type"

/-- The composite dedupe key
`(t.get("date"), t.get("description"), float(t.get("amount", 0.0)))`
from `BaseLLMService._merge_chunks`. -/
def txnKey (t : Obj) : Except String (HVal × HVal × ℚ) := do
  let d ← toHashable (objGetD t "date" .null)
  let de ← toHashable (objGetD t "description" .null)
  let a ← pyFloat (objGetD t "amount" (.num 0))
  return (d, de, a)

/-- Reads `chunk.get("transactions", [])` as a list of dicts; any shape that
would make the Python loop or `t.get(...)` raise is an error. -/
def getTxnList (o : Obj) : Except String (List Obj) :=
  match objGet o "transactions" with
  | none => .ok []
  | some (.arr elems) =>
      elems.mapM fun v =>
        match v with
        | .obj t => .ok t
        | _ => .error "AttributeError: transaction entry is not a dict"
  | some _ => .error "TypeError: transactions is not a list"

/-- Append freshly-deduplicated transactions, mirroring
`merged.setdefault("transactions", []).append(t)`: in-place list extension
when the key exists, key creation at the end of the dict otherwise. -/
def appendTxns (o : Obj) (ts : List Obj) : Obj :=
  match objGet o "transactions" with
  | some (.arr elems) => objSet o "transactions" (.arr (elems ++ ts.map JVal.obj))
  | some _ => o
  | none => objSet o "transactions" (.arr (ts.map JVal.obj))

/-- The dedupe loop of `_merge_chunks`: walk the incoming transactions,
returning those whose key was not already seen (in arrival order). -/
def dedupeLoop : List Obj → List (HVal × HVal × ℚ) → Except String (List Obj)
  | [], _ => .ok []
  | t :: rest, seen => do
      let k ← txnKey t
      if k ∈ seen then dedupeLoop rest seen
      else do
        let tail ← dedupeLoop rest (k :: seen)
        return t :: tail

/-- The pure tail of `_merge_chunks` once the deduplication loop has decided
which incoming transactions to append: append them (if any), overwrite
`closing_balance` whenever `nxt` carries the key, recompute `has_more` as
`bool(nxt.get("has_more"))`, and take `next_page_hint` from `nxt` when truthy
or drop it otherwise. -/
def mergeFinish (first nxt : Obj) (added : List Obj) : Obj :=
  let m1 := if added.isEmpty then first else appendTxns first added
  let m2 :=
    match objGet nxt "closing_balance" with
    | some v => objSet m1 "closing_balance" v
    | none => m1
  let m3 := objSet m2 "has_more" (.bool (truthy (objGetD nxt "has_more" .null)))
  if truthy (objGetD nxt "next_page_hint" .null) then
    objSet m3 "next_page_hint" (objGetD nxt "next_page_hint" .null)
  else
    objErase m3 "next_page_hint"

/-- `BaseLLMService._merge_chunks(first, nxt)`.  Transactions are merged with
dedupe by `txnKey`; then the pure field updates of `mergeFinish` run. -/
def merge_chunks (first nxt : Obj) : Except String Obj := do
  let ftx ← getTxnList first
  let ntx ← getTxnList nxt
  let seen ← ftx.mapM txnKey
  let added ← dedupeLoop ntx seen
  return mergeFinish first nxt added

/-! ## String scanners used by JSON recovery

The regular expressions of the source are embedded as explicit scanners with
the same semantics (leftmost match, greedy subpatterns with backtracking
resolved as the `re` engine resolves it).  `\s`, `\w` and `str.strip()` are
modelled over their ASCII core, which is all the engine's inputs exercise. -/

/-- Python `\s` / `str.strip()` whitespace (ASCII core). -/
def isPyWs (c : Char) : Bool :=
  c = ' ' || c = '\t' || c = '\n' || c = '\r' || c = '\x0b' || c = '\x0c'

/-- Python `\w` (ASCII core). -/
def isWordChar (c : Char) : Bool := c.isAlphanum || c = '_'

/-- The character class `[\w"']` of the lookbehind/lookahead in
`_normalize_number_separators`. -/
def isBoundaryChar (c : Char) : Bool :=
  isWordChar c || c = quoteChar || c = apostropheChar

/-- Python `str.strip()`. -/
def pythonStrip (s : String) : String :=
  String.mk (((s.data.dropWhile isPyWs).reverse.dropWhile isPyWs).reverse)

/-- Consume `\s*\n` greedily: the explicit `\n` lands on the last newline of
the maximal whitespace run (backtracking from the greedy `\s*`); fails when
the run has no newline.  Returns the remainder after that newline. -/
def wsThenLastNewline (cs : List Char) : Option (List Char) :=
  let run := cs.takeWhile isPyWs
  let rest := cs.dropWhile isPyWs
  if run.contains '\n' then
    some ((run.reverse.takeWhile (fun c => c ≠ '\n')).reverse ++ rest)
  else none

/-- Consume a literal triple backtick. -/
def stripTicks : List Char → Option (List Char)
  | a :: b :: c :: rest =>
      if a = backtickChar ∧ b = backtickChar ∧ c = backtickChar then some rest
      else none
  | _ => none

/-- Consume the literal `json` case-insensitively (the `re.IGNORECASE` flag). -/
def consumeJsonCI : List Char → Option (List Char)
  | a :: b :: c :: d :: rest =>
      if a.toLower = 'j' ∧ b.toLower = 's' ∧ c.toLower = 'o' ∧ d.toLower = 'n' then
        some rest
      else none
  | _ => none

/-- Split at the first occurrence of a triple backtick:
`(prefix before it, remainder after it)`; `none` when there is none.  This is
how the non-greedy `([\s\S]*?)` before a closing fence resolves. -/
def splitAtTicks : List Char → Option (List Char × List Char)
  | [] => none
  | c :: rest =>
      match stripTicks (c :: rest) with
      | some r => some ([], r)
      | none =>
          match splitAtTicks rest with
          | some (body, r) => some (c :: body, r)
          | none => none

/-- Try the pattern `` ```\s*json\s*\n([\s\S]*?)``` `` anchored at this
position; returns the captured body. -/
def fenceMatchAtJson (cs : List Char) : Option (List Char) := do
  let r1 ← stripTicks cs
  let r2 := r1.dropWhile isPyWs
  let r3 ← consumeJsonCI r2
  let r4 ← wsThenLastNewline r3
  let (body, _) ← splitAtTicks r4
  return body

/-- Try the pattern `` ```\s*\n([\s\S]*?)``` `` anchored at this position. -/
def fenceMatchAtPlain (cs : List Char) : Option (List Char) := do
  let r1 ← stripTicks cs
  let r4 ← wsThenLastNewline r1
  let (body, _) ← splitAtTicks r4
  return body

/-- `re.search` for the tagged fence: leftmost position where the pattern
matches. -/
def searchJsonFence : List Char → Option (List Char)
  | [] => none
  | c :: rest =>
      match fenceMatchAtJson (c :: rest) with
      | some body => some body
      | none => searchJsonFence rest

/-- `re.search` for the untagged fence. -/
def searchPlainFence : List Char → Option (List Char)
  | [] => none
  | c :: rest =>
      match fenceMatchAtPlain (c :: rest) with
      | some body => some body
      | none => searchPlainFence rest

/-- `BaseLLMService._extract_json_from_fenced_block(content)`. -/
def extract_json_from_fenced_block (content : String) : Option String :=
  match searchJsonFence content.data with
  | some body => some (pythonStrip (String.mk body))
  | none =>
      match searchPlainFence content.data with
      | some body => some (pythonStrip (String.mk body))
      | none => none

/-- The anchored substitution `re.sub(r"^\s*json\s*\n", "", content)` used by
`_strip_code_fences` (at most one replacement, at the start). -/
def stripJsonTag (cs : List Char) : List Char :=
  let r2 := cs.dropWhile isPyWs
  match consumeJsonCI r2 with
  | none => cs
  | some r3 =>
      match wsThenLastNewline r3 with
      | none => cs
      | some r4 => r4

/-- `BaseLLMService._strip_code_fences(content)`: strip, remove one enclosing
fence pair, remove a leading language tag, strip again. -/
def strip_code_fences (content : String) : String :=
  let c := pythonStrip content
  let c :=
    if c.startsWith "```" && c.endsWith "```" then
      String.mk ((c.data.drop 3).take (c.data.length - 6))
    else c
  let c := String.mk (stripJsonTag c.data)
  pythonStrip c

/-- One full left-to-right pass of `re.sub(r",\s*([}\]])", r"\1", content)`,
fuelled by the input length. -/
def rtcPass : Nat → List Char → List Char
  | 0, cs => cs
  | _ + 1, [] => []
  | n + 1, c :: rest =>
      if c = ',' then
        let rest2 := rest.dropWhile isPyWs
        match rest2 with
        | b :: r3 =>
            if b = rbraceChar ∨ b = rbrackChar then b :: rtcPass n r3
            else c :: rtcPass n rest
        | [] => c :: rtcPass n rest
      else c :: rtcPass n rest

/-- The `while prev != content` fixpoint loop; every changing pass strictly
shortens the string, so `length + 1` rounds reach the fixpoint. -/
def rtcFix : Nat → List Char → List Char
  | 0, cs => cs
  | n + 1, cs =>
      let cs2 := rtcPass (cs.length + 1) cs
      if cs2 = cs then cs else rtcFix n cs2

/-- `BaseLLMService._remove_trailing_commas(content)`. -/
def remove_trailing_commas (content : String) : String :=
  String.mk (rtcFix (content.length + 1) content.data)

/-! ## `_normalize_number_separators`

The pattern `(?<![\w"'])\d{1,3}(?:,\d{3})+(?:\.\d+)?(?![\w"'])` embedded as a
scanner.  Backtracking resolves as follows: the greedy `\d{1,3}` can only
succeed on a maximal digit run of length 1–3 (a shorter take leaves a digit
where `,` is required); `(?:,\d{3})+` collects maximally and, when the final
lookahead fails, gives back exactly one group (the position then holds `,`,
which always passes the lookahead); shortening the `\d+` of the fraction
never helps (the next character would be a digit, which fails the
lookahead), so the fraction is either taken maximally or not at all. -/

/-- The lookbehind `(?<![\w"'])`; `none` is the start of the string. -/
def lookbehindOk : Option Char → Bool
  | none => true
  | some c => !isBoundaryChar c

/-- The lookahead `(?![\w"'])`. -/
def lookaheadOk : List Char → Bool
  | [] => true
  | c :: _ => !isBoundaryChar c

/-- Collect the maximal run of `,\d{3}` groups. -/
def matchGroups : List Char → List (List Char) × List Char
  | ',' :: d1 :: d2 :: d3 :: rest =>
      if d1.isDigit = true ∧ d2.isDigit = true ∧ d3.isDigit = true then
        ([',', d1, d2, d3] :: (matchGroups rest).1, (matchGroups rest).2)
      else ([], ',' :: d1 :: d2 :: d3 :: rest)
  | cs => ([], cs)

/-- The optional fraction `(?:\.\d+)?` followed by the lookahead. -/
def fracAttempt : List Char → Option (List Char × List Char)
  | '.' :: rest =>
      let ds := rest.takeWhile Char.isDigit
      let r := rest.dropWhile Char.isDigit
      if ds ≠ [] ∧ lookaheadOk r then some ('.' :: ds, r) else none
  | _ => none

/-- Match the full numeric token at this position (lookbehind already
checked); returns `(matched token, remainder)`. -/
def matchNumToken (cs : List Char) : Option (List Char × List Char) :=
  if cs.takeWhile Char.isDigit = [] ∨ 3 < (cs.takeWhile Char.isDigit).length then
    none
  else
    if h : (matchGroups (cs.dropWhile Char.isDigit)).1 = [] then none
    else
      match fracAttempt (matchGroups (cs.dropWhile Char.isDigit)).2 with
      | some (f, r3) =>
          some (cs.takeWhile Char.isDigit ++
            (matchGroups (cs.dropWhile Char.isDigit)).1.flatten ++ f, r3)
      | none =>
          if lookaheadOk (matchGroups (cs.dropWhile Char.isDigit)).2 then
            some (cs.takeWhile Char.isDigit ++
              (matchGroups (cs.dropWhile Char.isDigit)).1.flatten,
              (matchGroups (cs.dropWhile Char.isDigit)).2)
          else if 2 ≤ (matchGroups (cs.dropWhile Char.isDigit)).1.length then
            some (cs.takeWhile Char.isDigit ++
              (matchGroups (cs.dropWhile Char.isDigit)).1.dropLast.flatten,
              (matchGroups (cs.dropWhile Char.isDigit)).1.getLast h ++
                (matchGroups (cs.dropWhile Char.isDigit)).2)
          else none

/-- The `re.sub` scan: walk the string, tracking the previous character for
the lookbehind; on a match, emit the token with its commas removed and resume
after it. -/
def normAux : Nat → Option Char → List Char → List Char
  | 0, _, cs => cs
  | _ + 1, _, [] => []
  | n + 1, prev, c :: rest =>
      if lookbehindOk prev then
        match matchNumToken (c :: rest) with
        | some (tok, r) =>
            tok.filter (fun ch => ch ≠ ',') ++ normAux n (some (tok.getLastD c)) r
        | none => c :: normAux n (some c) rest
      else c :: normAux n (some c) rest

/-- The scan with sufficient fuel (each step consumes at least one input
character). -/
def normRun (prev : Option Char) (cs : List Char) : List Char :=
  normAux (cs.length + 1) prev cs

/-- `BaseLLMService._normalize_number_separators(content)`. -/
def normalize_number_separators (content : String) : String :=
  String.mk (normRun none content.data)

/-- The balanced-brace scan of `_extract_first_json_object`, tracking brace
depth, string state and escape state exactly as the source loop does. -/
def scanBalanced : List Char → Nat → Bool → Bool → List Char → Option (List Char)
  | [], _, _, _, _ => none
  | c :: rest, depth, inStr, esc, acc =>
      if inStr then
        if esc then scanBalanced rest depth true false (c :: acc)
        else if c = backslashChar then scanBalanced rest depth true true (c :: acc)
        else if c = quoteChar then scanBalanced rest depth false false (c :: acc)
        else scanBalanced rest depth true false (c :: acc)
      else
        if c = quoteChar then scanBalanced rest depth true false (c :: acc)
        else if c = lbraceChar then scanBalanced rest (depth + 1) false false (c :: acc)
        else if c = rbraceChar then
          if depth = 1 then some (c :: acc).reverse
          else scanBalanced rest (depth - 1) false false (c :: acc)
        else scanBalanced rest depth false false (c :: acc)

/-- `BaseLLMService._extract_first_json_object(content)`: the first balanced,
string-aware `{...}` substring starting at the first `{`. -/
def extract_first_json_object (content : String) : Option String :=
  match content.data.dropWhile (fun c => c ≠ lbraceChar) with
  | [] => none
  | l => (scanBalanced l 0 false false []).map String.mk

/-! ## `json.loads`

A model of CPython's strict JSON decoder: no trailing commas, no comments,
`"` strings with the standard escapes (including surrogate pairs), numbers
with optional fraction and exponent, JSON whitespace only.  Deviations, none
of which any claim exercises: the non-standard literals `NaN` / `Infinity`
and lone `\uXXXX` surrogates are modelled as parse failures, and numbers are
exact rationals rather than doubles. -/

/-- JSON whitespace as accepted by `json.loads`. -/
def jsonSkipWs (cs : List Char) : List Char :=
  cs.dropWhile (fun c => c = ' ' || c = '\t' || c = '\n' || c = '\r')

/-- Hexadecimal digit value. -/
def hexVal (c : Char) : Option Nat :=
  if '0' ≤ c ∧ c ≤ '9' then some (c.toNat - 48)
  else if 'a' ≤ c ∧ c ≤ 'f' then some (c.toNat - 87)
  else if 'A' ≤ c ∧ c ≤ 'F' then some (c.toNat - 55)
  else none

/-- Four hex digits of a `\uXXXX` escape. -/
def parseHex4 : List Char → Option (Nat × List Char)
  | a :: b :: c :: d :: rest => do
      let va ← hexVal a
      let vb ← hexVal b
      let vc ← hexVal c
      let vd ← hexVal d
      return (va * 4096 + vb * 256 + vc * 16 + vd, rest)
  | _ => none

/-- String body after the opening quote; strict mode rejects raw control
characters, invalid escapes fail, surrogate pairs combine. -/
def parseJStringChars : Nat → List Char → Option (List Char × List Char)
  | 0, _ => none
  | _ + 1, [] => none
  | n + 1, c :: rest =>
      if c = quoteChar then some ([], rest)
      else if c = backslashChar then
        match rest with
        | [] => none
        | e :: r2 =>
            if e = quoteChar then do
              let (s, r) ← parseJStringChars n r2
              return (quoteChar :: s, r)
            else if e = backslashChar then do
              let (s, r) ← parseJStringChars n r2
              return (backslashChar :: s, r)
            else if e = '/' then do
              let (s, r) ← parseJStringChars n r2
              return ('/' :: s, r)
            else if e = 'b' then do
              let (s, r) ← parseJStringChars n r2
              return ('\x08' :: s, r)
            else if e = 'f' then do
              let (s, r) ← parseJStringChars n r2
              return ('\x0c' :: s, r)
            else if e = 'n' then do
              let (s, r) ← parseJStringChars n r2
              return ('\n' :: s, r)
            else if e = 'r' then do
              let (s, r) ← parseJStringChars n r2
              return ('\r' :: s, r)
            else if e = 't' then do
              let (s, r) ← parseJStringChars n r2
              return ('\t' :: s, r)
            else if e = 'u' then do
              let (m, r3) ← parseHex4 r2
              if 0xD800 ≤ m ∧ m < 0xDC00 then
                match r3 with
                | b1 :: u1 :: r4 =>
                    if b1 = backslashChar ∧ u1 = 'u' then do
                      let (lo, r5) ← parseHex4 r4
                      if 0xDC00 ≤ lo ∧ lo < 0xE000 then do
                        let code := 0x10000 + (m - 0xD800) * 0x400 + (lo - 0xDC00)
                        let (s, r) ← parseJStringChars n r5
                        return (Char.ofNat code :: s, r)
                      else none
                    else none
                | _ => none
              else if 0xDC00 ≤ m ∧ m < 0xE000 then none
              else do
                let (s, r) ← parseJStringChars n r3
                return (Char.ofNat m :: s, r)
            else none
      else if c.toNat < 0x20 then none
      else do
        let (s, r) ← parseJStringChars n rest
        return (c :: s, r)

/-- A JSON number (`-?(0|[1-9]\d*)(\.\d+)?([eE][+-]?\d+)?`), evaluated
exactly. -/
def parseJNumber (cs : List Char) : Option (ℚ × List Char) :=
  let (neg, r1) := match cs with | '-' :: r => (true, r) | _ => (false, cs)
  match r1 with
  | [] => none
  | c :: _ =>
      if ¬ c.isDigit then none
      else
        let intDigits := if c = '0' then ['0'] else r1.takeWhile Char.isDigit
        let r2 := r1.drop intDigits.length
        let (fracDigits, r3) :=
          match r2 with
          | '.' :: t =>
              if (t.takeWhile Char.isDigit) ≠ [] then
                (t.takeWhile Char.isDigit, t.dropWhile Char.isDigit)
              else ([], r2)
          | _ => ([], r2)
        let (expVal, r5) :=
          match r3 with
          | e :: t =>
              if e = 'e' ∨ e = 'E' then
                let (esign, t2) :=
                  match t with
                  | '-' :: u => ((-1 : ℤ), u)
                  | '+' :: u => ((1 : ℤ), u)
                  | _ => ((1 : ℤ), t)
                let eds := t2.takeWhile Char.isDigit
                if eds ≠ [] then
                  (esign * (natOfDigits eds : ℤ), t2.dropWhile Char.isDigit)
                else ((0 : ℤ), r3)
              else ((0 : ℤ), r3)
          | _ => ((0 : ℤ), r3)
        let mant : ℚ := (natOfDigits intDigits : ℚ) +
          (natOfDigits fracDigits : ℚ) / (10 ^ fracDigits.length : ℚ)
        let value := (if neg then -mant else mant) * (10 : ℚ) ^ expVal
        some (value, r5)

mutual

/-- One JSON value (whitespace-tolerant on the left). -/
def parseJVal : Nat → List Char → Option (JVal × List Char)
  | 0, _ => none
  | n + 1, cs =>
      match jsonSkipWs cs with
      | [] => none
      | c :: rest =>
          if c = lbraceChar then
            match jsonSkipWs rest with
            | [] => none
            | c2 :: r2 =>
                if c2 = rbraceChar then some (.obj [], r2)
                else parseJMembers n [] (c2 :: r2)
          else if c = lbrackChar then
            match jsonSkipWs rest with
            | [] => none
            | c2 :: r2 =>
                if c2 = rbrackChar then some (.arr [], r2)
                else parseJElems n [] (c2 :: r2)
          else if c = quoteChar then do
            let (s, r) ← parseJStringChars (rest.length + 1) rest
            return (.str (String.mk s), r)
          else if c = 't' then
            match rest with
            | 'r' :: 'u' :: 'e' :: r => some (.bool true, r)
            | _ => none
          else if c = 'f' then
            match rest with
            | 'a' :: 'l' :: 's' :: 'e' :: r => some (.bool false, r)
            | _ => none
          else if c = 'n' then
            match rest with
            | 'u' :: 'l' :: 'l' :: r => some (.null, r)
            | _ => none
          else if c = '-' ∨ c.isDigit then
            (parseJNumber (c :: rest)).map (fun p => (.num p.1, p.2))
          else none

/-- Object members after `{` (dict built left to right, duplicate keys
overwrite in place, as a Python dict does). -/
def parseJMembers : Nat → Obj → List Char → Option (JVal × List Char)
  | 0, _, _ => none
  | n + 1, acc, cs =>
      match cs with
      | c :: rest =>
          if c = quoteChar then do
            let (k, r1) ← parseJStringChars (rest.length + 1) rest
            match jsonSkipWs r1 with
            | ':' :: r3 => do
                let (v, r4) ← parseJVal n r3
                let acc2 := objSet acc (String.mk k) v
                match jsonSkipWs r4 with
                | ',' :: r6 => parseJMembers n acc2 (jsonSkipWs r6)
                | c5 :: r6 =>
                    if c5 = rbraceChar then some (.obj acc2, r6) else none
                | [] => none
            | _ => none
          else none
      | [] => none

/-- Array elements after `[`. -/
def parseJElems : Nat → List JVal → List Char → Option (JVal × List Char)
  | 0, _, _ => none
  | n + 1, acc, cs => do
      let (v, r1) ← parseJVal n cs
      match jsonSkipWs r1 with
      | ',' :: r3 => parseJElems n (acc ++ [v]) r3
      | c2 :: r3 => if c2 = rbrackChar then some (.arr (acc ++ [v]), r3) else none
      | [] => none

end

/-- `json.loads(s)`: one value, then only whitespace to the end. -/
def json_loads (s : String) : Option JVal :=
  match parseJVal (2 * s.length + 2) s.data with
  | some (v, rest) => if jsonSkipWs rest = [] then some v else none
  | none => none

/-! ## `_parse_response_json` -/

/-- The tail of the recovery cascade, reached when no (non-empty) fenced block
was found: balanced-object extraction with repairs, then the final repairs on
the fence-stripped text.  A failure of the last `json.loads` propagates as a
raised `JSONDecodeError`. -/
def parseResponseTail (cleaned : String) : Except String JVal :=
  match extract_first_json_object cleaned with
  | some obj =>
      if obj ≠ "" then
        match json_loads obj with
        | some v => .ok v
        | none =>
            let sanitized := remove_trailing_commas obj
            match json_loads sanitized with
            | some v => .ok v
            | none =>
                match json_loads (normalize_number_separators sanitized) with
                | some v => .ok v
                | none => .error "JSONDecodeError"
      else
        let sanitized_full := remove_trailing_commas cleaned
        match json_loads sanitized_full with
        | some v => .ok v
        | none =>
            match json_loads (normalize_number_separators sanitized_full) with
            | some v => .ok v
            | none => .error "JSONDecodeError"
  | none =>
      let sanitized_full := remove_trailing_commas cleaned
      match json_loads sanitized_full with
      | some v => .ok v
      | none =>
          match json_loads (normalize_number_separators sanitized_full) with
          | some v => .ok v
          | none => .error "JSONDecodeError"

/-- `BaseLLMService._parse_response_json(raw_content)`: raw parse, fence
strip, fenced-block extraction with repairs, balanced-object extraction with
repairs, final repairs — in that order, stopping at the first success. -/
def parse_response_json (raw_content : String) : Except String JVal :=
  match json_loads raw_content with
  | some v => .ok v
  | none =>
      let cleaned := strip_code_fences raw_content
      match json_loads cleaned with
      | some v => .ok v
      | none =>
          match extract_json_from_fenced_block raw_content with
          | some fenced =>
              if fenced ≠ "" then
                match json_loads fenced with
                | some v => .ok v
                | none =>
                    let fenced_norm :=
                      normalize_number_separators (remove_trailing_commas fenced)
                    match json_loads fenced_norm with
                    | some v => .ok v
                    | none => .error "JSONDecodeError"
              else parseResponseTail cleaned
          | none => parseResponseTail cleaned

/-! ## Pagination (`_paginate_and_collect`) -/

/-- The `while` loop of `BaseLLMService._paginate_and_collect`, fuelled by the
remaining follow-up budget (`max_followups - attempts`).  Returns the loop
outcome together with the number of `fetch_next` provider calls issued;
a call that raises (either in `fetch_next` or in `_merge_chunks`) still
counts as issued. -/
def paginateLoop (fetch : JVal → Except String Obj) :
    Obj → Nat → Except String Obj × Nat
  | merged, 0 => (.ok merged, 0)
  | merged, remaining + 1 =>
      if truthy (objGetD merged "has_more" .null) &&
          truthy (objGetD merged "next_page_hint" .null) then
        match fetch (objGetD merged "next_page_hint" .null) with
        | .error e => (.error e, 1)
        | .ok nxt =>
            match merge_chunks merged nxt with
            | .error e => (.error e, 1)
            | .ok m =>
                ((paginateLoop fetch m remaining).1,
                 (paginateLoop fetch m remaining).2 + 1)
      else (.ok merged, 0)

/-- `BaseLLMService._paginate_and_collect(first_chunk, fetch_next, max_followups)`:
run the continuation loop, then strip the pagination control fields from the
final output.  Also reports the number of `fetch_next` calls. -/
def paginate_and_collect (fetch : JVal → Except String Obj) (first_chunk : Obj)
    (max_followups : Nat) : Except String Obj × Nat :=
  match paginateLoop fetch first_chunk max_followups with
  | (.ok merged, n) => (.ok (objErase (objErase merged "has_more") "next_page_hint"), n)
  | (.error e, n) => (.error e, n)

/-! ## Canonical models (`app/models.py`) -/

/-- `app.models.Transaction`. -/
structure Transaction where
  date : String
  description : String
  amount : ℚ
  type : String
  category : Option String
  balance : Option ℚ
deriving Repr, DecidableEq

/-- `app.models.BankStatement` (`statement_period: Dict[str, str]`). -/
structure BankStatement where
  account_holder : String
  bank_name : String
  account_number : String
  statement_period : List (String × String)
  opening_balance : ℚ
  closing_balance : ℚ
  transactions : List Transaction
  currency : String
deriving Repr, DecidableEq

/-- `app.models.ParsedResponse`. -/
structure ParsedResponse where
  success : Bool
  data : Option BankStatement
  error : Option String
  processing_time : Option ℚ
deriving Repr, DecidableEq

/-! ## Normalisation (`_convert_to_bank_statement`) -/

/-- A pydantic `str` field: anything but a string is a validation error. -/
def expectStr : JVal → Except String String
  | .str s => .ok s
  | _ => .error "validation error: str expected"

/-- A pydantic `Optional[str]` field. -/
def expectOptStr : Option JVal → Except String (Option String)
  | none => .ok none
  | some .null => .ok none
  | some (.str s) => .ok (some s)
  | some _ => .error "validation error: Optional[str] expected"

/-- A pydantic `Dict[str, str]` field (the `statement_period`). -/
def expectStrMap : JVal → Except String (List (String × String))
  | .obj entries =>
      entries.mapM fun e =>
        match e.2 with
        | .str s => .ok (e.1, s)
        | _ => .error "validation error: Dict[str, str] expected"
  | _ => .error "validation error: Dict[str, str] expected"

/-- `float(txn_data["balance"]) if txn_data.get("balance") else None`: the
coercion runs only when the raw value is truthy. -/
def convert_balance (t : Obj) : Except String (Option ℚ) :=
  if truthy (objGetD t "balance" .null) then
    match pyFloat (objGetD t "balance" .null) with
    | .ok b => .ok (some b)
    | .error e => .error e
  else .ok none

/-- One iteration of the transaction loop in `_convert_to_bank_statement`:
required keys `date` / `description` / `amount` / `type`, optional
`category`, and `balance` via `convert_balance`. -/
def convert_txn (t : Obj) : Except String Transaction := do
  let date ← expectStr (← objGetReq t "date")
  let description ← expectStr (← objGetReq t "description")
  let amount ← pyFloat (← objGetReq t "amount")
  let ty ← expectStr (← objGetReq t "type")
  let category ← expectOptStr (objGet t "category")
  let balance ← convert_balance t
  return ⟨date, description, amount, ty, category, balance⟩

/-- The transaction loop: `for txn_data in data.get("transactions", [])`. -/
def convert_txns : List JVal → Except String (List Transaction)
  | [] => .ok []
  | .obj t :: rest => do
      let tr ← convert_txn t
      let trs ← convert_txns rest
      return tr :: trs
  | _ :: _ => .error "TypeError: transaction entry is not a dict"

/-- `BaseLLMService._convert_to_bank_statement(data)`. -/
def convert_to_bank_statement (data : Obj) : Except String BankStatement := do
  let rawTxns ←
    match objGet data "transactions" with
    | none => .ok []
    | some (.arr elems) => .ok elems
    | some _ => .error "TypeError: transactions is not a list"
  let transactions ← convert_txns rawTxns
  let account_holder ← expectStr (← objGetReq data "account_holder")
  let bank_name ← expectStr (← objGetReq data "bank_name")
  let account_number ← expectStr (← objGetReq data "account_number")
  let statement_period ← expectStrMap (← objGetReq data "statement_period")
  let opening_balance ← pyFloat (← objGetReq data "opening_balance")
  let closing_balance ← pyFloat (← objGetReq data "closing_balance")
  let currency ← expectStr (objGetD data "currency" (.str "USD"))
  return ⟨account_holder, bank_name, account_number, statement_period,
    opening_balance, closing_balance, transactions, currency⟩

/-! ## Public entry points (`parse_text_statement`, `parse_image_statement`) -/

/-- `BaseLLMService.parse_text_statement(text)` with the provider adapter
abstracted as `call : hint → chunk` (the hint is `None` on the first call and
the chunk's `next_page_hint` value on follow-ups).  Returns the outcome and
the total number of provider calls. -/
def parse_text_statement (call : JVal → Except String Obj) :
    Except String BankStatement × Nat :=
  match call .null with
  | .error e => (.error e, 1)
  | .ok first =>
      match paginate_and_collect call first 3 with
      | (.ok merged, n) => (convert_to_bank_statement merged, n + 1)
      | (.error e, n) => (.error e, n + 1)

/-- The loop of `parse_image_statement`: iterate `enumerate(base64_images)`,
skip images whose content hash was already seen, issue one provider call per
unique image with a synthetic `page=N` hint, and fold chunks with
`_merge_chunks`. -/
def imageLoop (call : String → String → Except String Obj)
    (hash : String → String) :
    List String → Nat → List String → Option Obj → Except String (Option Obj)
  | [], _, _, merged => .ok merged
  | img :: rest, idx, seenHashes, merged =>
      if hash img ∈ seenHashes then
        imageLoop call hash rest (idx + 1) seenHashes merged
      else
        match call img ("page=" ++ toString (idx + 1)) with
        | .error e => .error e
        | .ok chunk =>
            match merged with
            | none => imageLoop call hash rest (idx + 1) (hash img :: seenHashes) (some chunk)
            | some m =>
                match merge_chunks m chunk with
                | .error e => .error e
                | .ok m2 => imageLoop call hash rest (idx + 1) (hash img :: seenHashes) (some m2)

/-- The empty-skeleton chunk built by `parse_image_statement` when no unique
image produced a chunk. -/
def emptySkeletonObj : Obj :=
  [("account_holder", .str ""), ("bank_name", .str ""), ("account_number", .str ""),
   ("statement_period", .obj [("start_date", .str ""), ("end_date", .str "")]),
   ("opening_balance", .num 0), ("closing_balance", .num 0),
   ("transactions", .arr []), ("currency", .str "USD")]

/-- `BaseLLMService.parse_image_statement(base64_images)`; the provider call
takes the image and the synthetic page hint, and `hash` models
`hashlib.sha1(img.encode()).hexdigest()`. -/
def parse_image_statement (call : String → String → Except String Obj)
    (hash : String → String) (base64_images : List String) :
    Except String BankStatement := do
  let mergedOpt ← imageLoop call hash base64_images 0 [] none
  let merged := mergedOpt.getD emptySkeletonObj
  let merged := objErase (objErase merged "has_more") "next_page_hint"
  convert_to_bank_statement merged

/-- The canonical empty statement produced from `emptySkeletonObj`. -/
def emptyStatement : BankStatement :=
  ⟨"", "", "", [("start_date", ""), ("end_date", "")], 0, 0, [], "USD"⟩

/-! ## Orchestrator (`BankStatementParserService.parse_statement`) -/

/-- The collaborators consumed by `parse_statement`, each modelled as the
outcome it produces (`Except` for "may raise").  File content is opaque. -/
structure ParserDeps (File : Type) where
  validate_upload : Except String Unit
  read_file : Except String File
  validate_content : File → Except String Unit
  convert_to_images : File → Except String (List String)
  extract_text : File → Except String String
  single_text_call : String → JVal → Except String Obj
  single_image_call : String → String → Except String Obj
  hash : String → String

/-- Steps 1–3 of `parse_statement`: validation, read, and the branch on
`use_vision`, each step able to raise. -/
def runParseSteps {File : Type} (d : ParserDeps File) (use_vision : Bool) :
    Except String BankStatement := do
  d.validate_upload
  let content ← d.read_file
  d.validate_content content
  if use_vision then do
    let images ← d.convert_to_images content
    parse_image_statement d.single_image_call d.hash images
  else do
    let text ← d.extract_text content
    (parse_text_statement (d.single_text_call text)).1

/-- `BankStatementParserService.parse_statement(file, use_vision)`.  Wall-clock
time is modelled by the start instant `t0` and the return instant `t1`; the
source computes `processing_time = time.time() - start_time` in both the
success branch and the `except` branch. -/
def parse_statement {File : Type} (d : ParserDeps File) (use_vision : Bool)
    (t0 t1 : ℚ) : ParsedResponse :=
  match runParseSteps d use_vision with
  | .ok bs => ⟨true, some bs, none, some (t1 - t0)⟩
  | .error e => ⟨false, none, some e, some (t1 - t0)⟩

/-! ## Basic lemmas about dict operations -/

theorem objGet_objSet_self (o : Obj) (k : String) (v : JVal) :
    objGet (objSet o k v) k = some v := by
  induction o with
  | nil => simp [objSet, objGet]
  | cons e rest ih =>
      obtain ⟨ek, ev⟩ := e
      by_cases he : ek = k
      · subst he
        simp [objSet, objGet]
      · simp [objSet, objGet, he, ih]

theorem objGet_objSet_ne (o : Obj) (k k' : String) (v : JVal) (h : k' ≠ k) :
    objGet (objSet o k v) k' = objGet o k' := by
  induction o with
  | nil => simp [objSet, objGet, Ne.symm h]
  | cons e rest ih =>
      obtain ⟨ek, ev⟩ := e
      by_cases he : ek = k
      · subst he
        simp [objSet, objGet, Ne.symm h]
      · by_cases he' : ek = k'
        · subst he'
          simp [objSet, objGet, he]
        · simp [objSet, objGet, he, he', ih]

theorem objGet_objErase_ne (o : Obj) (k k' : String) (h : k' ≠ k) :
    objGet (objErase o k) k' = objGet o k' := by
  induction o with
  | nil => simp [objErase]
  | cons e rest ih =>
      obtain ⟨ek, ev⟩ := e
      by_cases he : ek = k
      · subst he
        simp [objErase, objGet, ih, Ne.symm h]
      · by_cases he' : ek = k'
        · subst he'
          simp [objErase, objGet, he]
        · simp [objErase, objGet, he, he', ih]

theorem objGet_appendTxns_ne (o : Obj) (ts : List Obj) (k : String)
    (h : k ≠ "transactions") :
    objGet (appendTxns o ts) k = objGet o k := by
  unfold appendTxns
  cases hg : objGet o "transactions" with
  | none => exact objGet_objSet_ne o "transactions" k _ h
  | some v =>
      cases v <;>
        first
          | exact objGet_objSet_ne o "transactions" k _ h
          | rfl

/-! ## Decomposition of a successful merge -/

theorem except_bind_ok {α β : Type} {x : Except String α} {g : α → Except String β}
    {b : β} (h : x >>= g = .ok b) : ∃ a, x = .ok a ∧ g a = .ok b := by
  cases x with
  | error e => simp [Bind.bind, Except.bind] at h
  | ok a => exact ⟨a, rfl, by simpa [Bind.bind, Except.bind] using h⟩

theorem except_map_ok {α β : Type} {x : Except String α} {g : α → β} {b : β}
    (h : g <$> x = .ok b) : ∃ a, x = .ok a ∧ g a = b := by
  cases x with
  | error e => simp [Functor.map, Except.map] at h
  | ok a =>
      refine ⟨a, rfl, ?_⟩
      simpa [Functor.map, Except.map] using h

theorem merge_chunks_ok_elim {f n m : Obj} (h : merge_chunks f n = .ok m) :
    ∃ ftx ntx seen added,
      getTxnList f = .ok ftx ∧ getTxnList n = .ok ntx ∧
      ftx.mapM txnKey = .ok seen ∧ dedupeLoop ntx seen = .ok added ∧
      m = mergeFinish f n added := by
  unfold merge_chunks at h
  obtain ⟨ftx, h1, h⟩ := except_bind_ok h
  obtain ⟨ntx, h2, h⟩ := except_bind_ok h
  obtain ⟨seen, h3, h⟩ := except_bind_ok h
  obtain ⟨added, h4, h⟩ := except_map_ok h
  exact ⟨ftx, ntx, seen, added, h1, h2, h3, h4, h.symm⟩

/-- Everything `mergeFinish` touches is confined to the four keys
`transactions`, `closing_balance`, `has_more`, `next_page_hint`. -/
theorem objGet_mergeFinish_other (f n : Obj) (added : List Obj) (k : String)
    (hk1 : k ≠ "transactions") (hk2 : k ≠ "closing_balance")
    (hk3 : k ≠ "has_more") (hk4 : k ≠ "next_page_hint") :
    objGet (mergeFinish f n added) k = objGet f k := by
  unfold mergeFinish
  have step1 : ∀ m1 : Obj,
      objGet (match objGet n "closing_balance" with
        | some v => objSet m1 "closing_balance" v
        | none => m1) k = objGet m1 k := by
    intro m1
    cases objGet n "closing_balance" with
    | none => rfl
    | some v => exact objGet_objSet_ne m1 "closing_balance" k v hk2
  by_cases hh : truthy (objGetD n "next_page_hint" .null) = true
  · simp only [hh, if_pos]
    rw [objGet_objSet_ne _ "next_page_hint" k _ hk4,
      objGet_objSet_ne _ "has_more" k _ hk3, step1]
    by_cases ha : added.isEmpty
    · simp [ha]
    · simp only [ha, if_neg, Bool.false_eq_true, not_false_iff]
      exact objGet_appendTxns_ne f added k hk1
  · simp only [hh, if_neg, Bool.not_eq_true]
    rw [objGet_objErase_ne _ "next_page_hint" k hk4,
      objGet_objSet_ne _ "has_more" k _ hk3, step1]
    by_cases ha : added.isEmpty
    · simp [ha]
    · simp only [ha, if_neg, Bool.false_eq_true, not_false_iff]
      exact objGet_appendTxns_ne f added k hk1

/-- `mergeFinish` puts `nxt`'s `closing_balance` into the result whenever
`nxt` carries that key. -/
theorem objGet_mergeFinish_closing (f n : Obj) (added : List Obj) (v : JVal)
    (hv : objGet n "closing_balance" = some v) :
    objGet (mergeFinish f n added) "closing_balance" = some v := by
  unfold mergeFinish
  rw [hv]
  by_cases hh : truthy (objGetD n "next_page_hint" .null) = true
  · simp only [hh, if_pos]
    rw [objGet_objSet_ne _ "next_page_hint" _ _ (by decide),
      objGet_objSet_ne _ "has_more" _ _ (by decide)]
    exact objGet_objSet_self _ "closing_balance" v
  · simp only [hh, if_neg, Bool.not_eq_true]
    rw [objGet_objErase_ne _ "next_page_hint" _ (by decide),
      objGet_objSet_ne _ "has_more" _ _ (by decide)]
    exact objGet_objSet_self _ "closing_balance" v

/-! ## C8 — image mode with zero images returns the empty skeleton -/

/-- C8: for an empty list of page images (the only way zero unique images can
remain, since the first image is never a duplicate), `parse_image_statement`
returns the defined empty-skeleton statement — every string field empty, the
statement period with empty start and end dates, both balances zero, no
transactions, currency `"USD"` — rather than an error. -/
theorem image_mode_empty_input_returns_skeleton
    (call : String → String → Except String Obj) (hash : String → String) :
    parse_image_statement call hash [] = .ok emptyStatement := rfl

/-! ## C2 — text-mode pagination is bounded by 1 + 3 provider calls -/

theorem paginateLoop_count_le (fetch : JVal → Except String Obj) :
    ∀ (r : Nat) (merged : Obj), (paginateLoop fetch merged r).2 ≤ r := by
  intro r
  induction r with
  | zero => intro merged; simp [paginateLoop]
  | succ n ih =>
      intro merged
      unfold paginateLoop
      by_cases hc : (truthy (objGetD merged "has_more" .null) &&
          truthy (objGetD merged "next_page_hint" .null)) = true
      · rw [if_pos hc]
        cases hf : fetch (objGetD merged "next_page_hint" .null) with
        | error e => simp
        | ok nxt =>
            simp only []
            cases hm : merge_chunks merged nxt with
            | error e => simp
            | ok m =>
                have := ih m
                simp only []
                omega
      · simp [hc]

/-- C2: in text mode, the pagination loop issues at most 4 provider calls in
total — 1 initial call plus at most `max_followups = 3` follow-ups — no
matter how often the merged chunk keeps `has_more` true with a non-empty
`next_page_hint`; and the loop stops immediately (zero further calls) as
soon as the merged chunk has a falsy `has_more` or a falsy (in particular
empty) `next_page_hint`. -/
theorem text_pagination_at_most_four_calls (call : JVal → Except String Obj) :
    (parse_text_statement call).2 ≤ 4 ∧
    ∀ merged : Obj,
      truthy (objGetD merged "has_more" .null) = false ∨
        truthy (objGetD merged "next_page_hint" .null) = false →
      (paginateLoop call merged 3).2 = 0 := by
  constructor
  · unfold parse_text_statement
    cases hf : call .null with
    | error e => simp
    | ok first =>
        have hle := paginateLoop_count_le call 3 first
        rcases hp : paginateLoop call first 3 with ⟨res, n⟩
        rw [hp] at hle
        simp only [paginate_and_collect, hp]
        cases res
        · simp only []
          omega
        · simp only []
          omega
  · intro merged hstop
    unfold paginateLoop
    rcases hstop with h | h <;> simp [h]

/-- Witness for C2 at a concrete provider and a concrete stopped chunk. -/
theorem text_pagination_at_most_four_calls_witness :
    (parse_text_statement (fun _ => .ok [("has_more", .bool false)])).2 ≤ 4 ∧
      (paginateLoop (fun _ => .ok [("has_more", .bool false)])
        [("has_more", .bool false)] 3).2 = 0 := by
  refine ⟨(text_pagination_at_most_four_calls _).1, ?_⟩
  exact (text_pagination_at_most_four_calls
    (fun _ => .ok [("has_more", .bool false)])).2 _ (Or.inl (by decide))

/-! ## C5 — `closing_balance` is last-seen-wins -/

/-- C5: merging a newer chunk overwrites `closing_balance` with the newer
chunk's value (for chunks that carry the field, as every schema-conforming
chunk does), and consequently a left-fold of chunks in arrival order ends
with the latest chunk's `closing_balance`. -/
theorem closing_balance_last_seen_wins :
    (∀ (acc nxt m : Obj) (v : JVal),
        merge_chunks acc nxt = .ok m →
        objGet nxt "closing_balance" = some v →
        objGet m "closing_balance" = some v) ∧
    (∀ (chunks : List Obj) (c0 m lastChunk : Obj) (v : JVal),
        List.foldlM merge_chunks c0 chunks = .ok m →
        chunks.getLast? = some lastChunk →
        objGet lastChunk "closing_balance" = some v →
        objGet m "closing_balance" = some v) := by
  have pairwise : ∀ (acc nxt m : Obj) (v : JVal),
      merge_chunks acc nxt = .ok m →
      objGet nxt "closing_balance" = some v →
      objGet m "closing_balance" = some v := by
    intro acc nxt m v hm hv
    obtain ⟨ftx, ntx, seen, added, _, _, _, _, heq⟩ := merge_chunks_ok_elim hm
    rw [heq]
    exact objGet_mergeFinish_closing acc nxt added v hv
  refine ⟨pairwise, ?_⟩
  intro chunks
  induction chunks with
  | nil => intro c0 m lastChunk v _ hl; simp at hl
  | cons x rest ih =>
      intro c0 m lastChunk v hfold hl hv
      rw [List.foldlM_cons] at hfold
      obtain ⟨c1, hc1, hfold⟩ := except_bind_ok hfold
      cases rest with
      | nil =>
          simp at hl
          subst hl
          simp [List.foldlM] at hfold
          cases hfold
          exact pairwise c0 x m v hc1 hv
      | cons y ys =>
          have hl' : (y :: ys).getLast? = some lastChunk := by
            rw [← hl, List.getLast?_cons_cons]
          exact ih c1 m lastChunk v hfold hl' hv

/-- Witness for C5: folding two concrete chunks whose closing balances
differ ends with the second chunk's value. -/
theorem closing_balance_last_seen_wins_witness :
    objGet [("closing_balance", JVal.num 2), ("has_more", JVal.bool false)]
      "closing_balance" = some (JVal.num 2) :=
  closing_balance_last_seen_wins.1
    [("closing_balance", JVal.num 1)] [("closing_balance", JVal.num 2)]
    [("closing_balance", JVal.num 2), ("has_more", JVal.bool false)]
    (JVal.num 2) (by rfl) (by rfl)

/-! ## C4 — identity fields come from the first chunk -/

/-- C4: in a left-fold merge of chunks in arrival order, every top-level
field other than `transactions`, `closing_balance` and the continuation
control fields (`has_more`, `next_page_hint`) — in particular
`account_holder`, `bank_name`, `account_number`, `statement_period`,
`opening_balance`, `currency` — keeps the first chunk's value, whatever the
later chunks contain. -/
theorem identity_fields_from_first_chunk
    (chunks : List Obj) (c0 m : Obj) (k : String)
    (hfold : List.foldlM merge_chunks c0 chunks = .ok m)
    (hk1 : k ≠ "transactions") (hk2 : k ≠ "closing_balance")
    (hk3 : k ≠ "has_more") (hk4 : k ≠ "next_page_hint") :
    objGet m k = objGet c0 k := by
  induction chunks generalizing c0 with
  | nil =>
      simp [List.foldlM] at hfold
      cases hfold
      rfl
  | cons x rest ih =>
      rw [List.foldlM_cons] at hfold
      obtain ⟨c1, hc1, hfold⟩ := except_bind_ok hfold
      obtain ⟨ftx, ntx, seen, added, _, _, _, _, heq⟩ := merge_chunks_ok_elim hc1
      have h1 : objGet c1 k = objGet c0 k := by
        rw [heq]
        exact objGet_mergeFinish_other c0 x added k hk1 hk2 hk3 hk4
      rw [← h1]
      exact ih c1 hfold

/-- Witness for C4: a later chunk with a different `account_holder` does not
overwrite the first chunk's value. -/
theorem identity_fields_from_first_chunk_witness :
    objGet [("account_holder", JVal.str "first"), ("has_more", JVal.bool false)]
        "account_holder" =
      objGet [("account_holder", JVal.str "first")] "account_holder" :=
  identity_fields_from_first_chunk
    [[("account_holder", JVal.str "second")]]
    [("account_holder", JVal.str "first")]
    [("account_holder", JVal.str "first"), ("has_more", JVal.bool false)]
    "account_holder" (by rfl) (by decide) (by decide) (by decide) (by decide)

/-! ## C3 — merging duplicate transactions -/

theorem dedupeLoop_all_seen (ntx : List Obj) (seen : List (HVal × HVal × ℚ))
    (h : ∀ t ∈ ntx, ∃ kk, txnKey t = .ok kk ∧ kk ∈ seen) :
    dedupeLoop ntx seen = .ok [] := by
  induction ntx with
  | nil => rfl
  | cons t rest ih =>
      obtain ⟨kk, hk, hmem⟩ := h t (List.mem_cons_self t rest)
      unfold dedupeLoop
      rw [hk]
      simp only [Bind.bind, Except.bind, hmem, if_pos]
      exact ih (fun u hu => h u (List.mem_cons_of_mem t hu))

/-- With nothing appended, `mergeFinish` leaves every key other than
`closing_balance`, `has_more` and `next_page_hint` unchanged — including
`transactions`. -/
theorem objGet_mergeFinish_nil (f n : Obj) (k : String)
    (hk2 : k ≠ "closing_balance") (hk3 : k ≠ "has_more")
    (hk4 : k ≠ "next_page_hint") :
    objGet (mergeFinish f n []) k = objGet f k := by
  unfold mergeFinish
  simp only [List.isEmpty_nil, if_pos]
  have step1 : ∀ m1 : Obj,
      objGet (match objGet n "closing_balance" with
        | some v => objSet m1 "closing_balance" v
        | none => m1) k = objGet m1 k := by
    intro m1
    cases objGet n "closing_balance" with
    | none => rfl
    | some v => exact objGet_objSet_ne m1 "closing_balance" k v hk2
  by_cases hh : truthy (objGetD n "next_page_hint" .null) = true
  · simp only [hh, if_pos]
    rw [objGet_objSet_ne _ "next_page_hint" k _ hk4,
      objGet_objSet_ne _ "has_more" k _ hk3, step1]
  · simp only [hh, if_neg, Bool.not_eq_true]
    rw [objGet_objErase_ne _ "next_page_hint" k hk4,
      objGet_objSet_ne _ "has_more" k _ hk3, step1]

/-- C3 counterexample: an incoming chunk whose only transaction is already
present in the accumulator under the composite key still changes the merged
result — `closing_balance` is overwritten and `has_more` is recomputed — so
the merged result does *not* equal the accumulator. -/
theorem merge_idempotence_counterexample :
    merge_chunks
        [("transactions", JVal.arr [JVal.obj [("date", JVal.str "2024-01-01"),
            ("description", JVal.str "coffee"), ("amount", JVal.num 5)]]),
         ("closing_balance", JVal.num 100)]
        [("transactions", JVal.arr [JVal.obj [("date", JVal.str "2024-01-01"),
            ("description", JVal.str "coffee"), ("amount", JVal.num 5)]]),
         ("closing_balance", JVal.num 200)] =
      .ok [("transactions", JVal.arr [JVal.obj [("date", JVal.str "2024-01-01"),
            ("description", JVal.str "coffee"), ("amount", JVal.num 5)]]),
           ("closing_balance", JVal.num 200), ("has_more", JVal.bool false)] ∧
    ([("transactions", JVal.arr [JVal.obj [("date", JVal.str "2024-01-01"),
        ("description", JVal.str "coffee"), ("amount", JVal.num 5)]]),
      ("closing_balance", JVal.num 200), ("has_more", JVal.bool false)] : Obj) ≠
      [("transactions", JVal.arr [JVal.obj [("date", JVal.str "2024-01-01"),
          ("description", JVal.str "coffee"), ("amount", JVal.num 5)]]),
       ("closing_balance", JVal.num 100)] := by
  constructor
  · rfl
  · intro h
    have := congrArg List.length h
    simp at this

/-- C3 amended: when every transaction of the incoming chunk is already
present in the accumulator under the composite key
(date, description, amount-as-float), merging appends no transaction — the
merged result's `transactions` entry is exactly the accumulator's — and every
top-level field other than `closing_balance` and the continuation control
fields (`has_more`, `next_page_hint`) is unchanged. -/
theorem merge_duplicate_transactions_appends_nothing
    (f nxt m : Obj) (ftx ntx : List Obj) (seen : List (HVal × HVal × ℚ))
    (h1 : getTxnList f = .ok ftx) (h2 : getTxnList nxt = .ok ntx)
    (h3 : ftx.mapM txnKey = .ok seen)
    (hsub : ∀ t ∈ ntx, ∃ kk, txnKey t = .ok kk ∧ kk ∈ seen)
    (hm : merge_chunks f nxt = .ok m) :
    objGet m "transactions" = objGet f "transactions" ∧
    ∀ k, k ≠ "closing_balance" → k ≠ "has_more" → k ≠ "next_page_hint" →
      objGet m k = objGet f k := by
  obtain ⟨ftx', ntx', seen', added, h1', h2', h3', h4', heq⟩ := merge_chunks_ok_elim hm
  rw [h1] at h1'
  rw [h2] at h2'
  cases h1'
  cases h2'
  rw [h3] at h3'
  cases h3'
  rw [dedupeLoop_all_seen ntx seen hsub] at h4'
  cases h4'
  subst heq
  exact ⟨objGet_mergeFinish_nil f nxt "transactions" (by decide) (by decide) (by decide),
    fun k hk2 hk3 hk4 => objGet_mergeFinish_nil f nxt k hk2 hk3 hk4⟩

/-- Witness for the amended C3 at the counterexample's concrete chunks. -/
theorem merge_duplicate_transactions_appends_nothing_witness :
    objGet [("transactions", JVal.arr [JVal.obj [("date", JVal.str "2024-01-01"),
        ("description", JVal.str "coffee"), ("amount", JVal.num 5)]]),
      ("closing_balance", JVal.num 200), ("has_more", JVal.bool false)]
        "transactions" =
      objGet [("transactions", JVal.arr [JVal.obj [("date", JVal.str "2024-01-01"),
          ("description", JVal.str "coffee"), ("amount", JVal.num 5)]]),
        ("closing_balance", JVal.num 100)] "transactions" :=
  (merge_duplicate_transactions_appends_nothing
    [("transactions", JVal.arr [JVal.obj [("date", JVal.str "2024-01-01"),
        ("description", JVal.str "coffee"), ("amount", JVal.num 5)]]),
     ("closing_balance", JVal.num 100)]
    [("transactions", JVal.arr [JVal.obj [("date", JVal.str "2024-01-01"),
        ("description", JVal.str "coffee"), ("amount", JVal.num 5)]]),
     ("closing_balance", JVal.num 200)]
    [("transactions", JVal.arr [JVal.obj [("date", JVal.str "2024-01-01"),
        ("description", JVal.str "coffee"), ("amount", JVal.num 5)]]),
     ("closing_balance", JVal.num 200), ("has_more", JVal.bool false)]
    [[("date", JVal.str "2024-01-01"), ("description", JVal.str "coffee"),
      ("amount", JVal.num 5)]]
    [[("date", JVal.str "2024-01-01"), ("description", JVal.str "coffee"),
      ("amount", JVal.num 5)]]
    [(HVal.str "2024-01-01", HVal.str "coffee", (5 : ℚ))]
    (by rfl) (by rfl) (by rfl)
    (by
      intro t ht
      simp only [List.mem_singleton] at ht
      subst ht
      exact ⟨(HVal.str "2024-01-01", HVal.str "coffee", (5 : ℚ)), rfl,
        List.mem_singleton.mpr rfl⟩)
    (by rfl)).1

/-! ## C9 — a zero transaction balance is treated as absent -/

/-- C9: the normalizer sets a canonical transaction's `balance` to the
decimal coercion of the raw value only when the raw value is present and
truthy; any falsy raw value — in particular a raw balance of `0` — yields
`balance = none`. -/
theorem balance_zero_treated_as_absent (t : Obj) (r : Transaction)
    (h : convert_txn t = .ok r) :
    (truthy (objGetD t "balance" .null) = false → r.balance = none) ∧
    (∀ q : ℚ, truthy (objGetD t "balance" .null) = true →
      pyFloat (objGetD t "balance" .null) = .ok q → r.balance = some q) ∧
    (objGet t "balance" = some (.num 0) → r.balance = none) := by
  unfold convert_txn at h
  obtain ⟨vd, _, h⟩ := except_bind_ok h
  obtain ⟨date, _, h⟩ := except_bind_ok h
  obtain ⟨vde, _, h⟩ := except_bind_ok h
  obtain ⟨description, _, h⟩ := except_bind_ok h
  obtain ⟨va, _, h⟩ := except_bind_ok h
  obtain ⟨amount, _, h⟩ := except_bind_ok h
  obtain ⟨vt, _, h⟩ := except_bind_ok h
  obtain ⟨ty, _, h⟩ := except_bind_ok h
  obtain ⟨category, _, h⟩ := except_bind_ok h
  obtain ⟨bal, hbal, hr⟩ := except_bind_ok h
  have hrr : r = ⟨date, description, amount, ty, category, bal⟩ := by
    simpa [Pure.pure, Except.pure] using hr.symm
  have hzero : objGet t "balance" = some (.num 0) →
      truthy (objGetD t "balance" .null) = false := by
    intro hz
    simp [objGetD, hz, truthy]
  have hfalsy : truthy (objGetD t "balance" .null) = false → bal = none := by
    intro hfalse
    unfold convert_balance at hbal
    rw [hfalse] at hbal
    simp at hbal
    exact hbal.symm
  refine ⟨?_, ?_, ?_⟩
  · intro hfalse
    rw [hrr, hfalsy hfalse]
  · intro q htrue hq
    unfold convert_balance at hbal
    rw [htrue] at hbal
    simp only [if_pos] at hbal
    rw [hq] at hbal
    cases hbal
    rw [hrr]
  · intro hz
    rw [hrr, hfalsy (hzero hz)]

/-- Witness for C9: a transaction carrying `balance: 0` converts with
`balance = none`. -/
theorem balance_zero_treated_as_absent_witness :
    (⟨"2024-01-01", "coffee", 5, "debit", none, none⟩ : Transaction).balance
      = none :=
  (balance_zero_treated_as_absent
    [("date", JVal.str "2024-01-01"), ("description", JVal.str "coffee"),
     ("amount", JVal.num 5), ("type", JVal.str "debit"),
     ("balance", JVal.num 0)]
    ⟨"2024-01-01", "coffee", 5, "debit", none, none⟩
    (by rfl)).2.2 (by rfl)

/-! ## C1 — the orchestrator never raises and always reports elapsed time -/

/-- C1: `parse_statement` always returns a `ParsedResponse`: whatever any of
the steps (validation, file reading, PDF processing, provider extraction)
raises is converted into `{success := false, error := the message}`, a
successful run is wrapped as `{success := true, data := the statement}`, and
in both cases `processing_time` is the wall-clock time elapsed between the
start instant `t0` and the return instant `t1`. -/
theorem orchestrator_uniform_response {File : Type} (d : ParserDeps File)
    (use_vision : Bool) (t0 t1 : ℚ) :
    (parse_statement d use_vision t0 t1).processing_time = some (t1 - t0) ∧
    (∀ e, runParseSteps d use_vision = .error e →
      parse_statement d use_vision t0 t1 =
        ⟨false, none, some e, some (t1 - t0)⟩) ∧
    (∀ bs, runParseSteps d use_vision = .ok bs →
      parse_statement d use_vision t0 t1 =
        ⟨true, some bs, none, some (t1 - t0)⟩) := by
  cases h : runParseSteps d use_vision with
  | error e =>
      refine ⟨by simp [parse_statement, h], ?_, ?_⟩
      · intro x hx
        cases hx
        simp [parse_statement, h]
      · intro x hx
        simp at hx
  | ok bs =>
      refine ⟨by simp [parse_statement, h], ?_, ?_⟩
      · intro x hx
        simp at hx
      · intro x hx
        cases hx
        simp [parse_statement, h]

/-- Witness for C1: a failing upload validation is converted into the
uniform failure response with the elapsed time. -/
theorem orchestrator_uniform_response_witness :
    parse_statement
      (⟨.error "Invalid file type", .ok (), fun _ => .ok (),
        fun _ => .ok [], fun _ => .ok "",
        fun _ _ => .error "not implemented", fun _ _ => .error "not implemented",
        id⟩ : ParserDeps Unit) true 0 2 =
      ⟨false, none, some "Invalid file type", some (2 - 0)⟩ :=
  (orchestrator_uniform_response
    (⟨.error "Invalid file type", .ok (), fun _ => .ok (),
      fun _ => .ok [], fun _ => .ok "",
      fun _ _ => .error "not implemented", fun _ _ => .error "not implemented",
      id⟩ : ParserDeps Unit) true 0 2).2.1 "Invalid file type" (by rfl)

/-! ## C10 — `data` and `error` are mutually exclusive -/

/-- C10: in every `ParsedResponse` returned by `parse_statement`, success
means `data` is a statement and `error` is `none`, failure means `data` is
`none` and `error` is a message — the two are never both set. -/
theorem response_data_error_exclusive {File : Type} (d : ParserDeps File)
    (use_vision : Bool) (t0 t1 : ℚ) :
    ((parse_statement d use_vision t0 t1).success = true →
      (∃ bs, (parse_statement d use_vision t0 t1).data = some bs) ∧
      (parse_statement d use_vision t0 t1).error = none) ∧
    ((parse_statement d use_vision t0 t1).success = false →
      (parse_statement d use_vision t0 t1).data = none ∧
      ∃ msg, (parse_statement d use_vision t0 t1).error = some msg) := by
  cases h : runParseSteps d use_vision with
  | error e => simp [parse_statement, h]
  | ok bs => simp [parse_statement, h]

/-- Witness for C10 on a concrete failing run. -/
theorem response_data_error_exclusive_witness :
    (parse_statement
      (⟨.error "bad upload", .ok (), fun _ => .ok (),
        fun _ => .ok [], fun _ => .ok "",
        fun _ _ => .error "not implemented", fun _ _ => .error "not implemented",
        id⟩ : ParserDeps Unit) false 0 1).data = none ∧
    ∃ msg, (parse_statement
      (⟨.error "bad upload", .ok (), fun _ => .ok (),
        fun _ => .ok [], fun _ => .ok "",
        fun _ _ => .error "not implemented", fun _ _ => .error "not implemented",
        id⟩ : ParserDeps Unit) false 0 1).error = some msg :=
  (response_data_error_exclusive
    (⟨.error "bad upload", .ok (), fun _ => .ok (),
      fun _ => .ok [], fun _ => .ok "",
      fun _ _ => .error "not implemented", fun _ _ => .error "not implemented",
      id⟩ : ParserDeps Unit) false 0 1).2 (by rfl)

/-! ## C7 — number-separator normalisation and quoted strings

The counterexample below shows the pattern also fires *inside* quoted
strings whenever the token is not directly adjacent to a quote or word
character; the lemmas after it characterise exactly what the substitution
does. -/

/-- C7 counterexample: the numeric token `1,234` lies inside a quoted string,
yet `_normalize_number_separators` removes its comma — quoted string content
is not left unchanged. -/
theorem normalize_alters_quoted_content_counterexample :
    normalize_number_separators "\"a 1,234 b\"" = "\"a 1234 b\"" ∧
    ("\"a 1234 b\"" : String) ≠ "\"a 1,234 b\"" := by
  constructor
  · rfl
  · decide

/-- A maximal run of comma-separated three-digit groups, as written in a
document: the shape `\d{1,3}(,\d{3})+(\.\d+)?` broken into integer part,
groups and optional fraction. -/
structure GroupedNum where
  intPart : List Char
  groups : List (List Char)
  fracPart : Option (List Char)

/-- Well-formedness of a `GroupedNum`: 1–3 digits, at least one `,ddd`
group, and a non-empty all-digit fraction when present. -/
def GroupedNum.wf (g : GroupedNum) : Prop :=
  g.intPart ≠ [] ∧ g.intPart.length ≤ 3 ∧ (∀ c ∈ g.intPart, c.isDigit = true) ∧
  g.groups ≠ [] ∧
  (∀ gr ∈ g.groups, ∃ x y z, gr = [',', x, y, z] ∧
    x.isDigit = true ∧ y.isDigit = true ∧ z.isDigit = true) ∧
  (∀ f, g.fracPart = some f → f ≠ [] ∧ ∀ c ∈ f, c.isDigit = true)

/-- The characters of the token as they occur in the document. -/
def GroupedNum.render (g : GroupedNum) : List Char :=
  g.intPart ++ g.groups.flatten ++
    (match g.fracPart with | some f => '.' :: f | none => [])

/-- `b` begins with a further `,ddd` group (which would extend the match). -/
def startsWithCommaGroup (b : List Char) : Prop :=
  ∃ x y z rest, b = ',' :: x :: y :: z :: rest ∧
    x.isDigit = true ∧ y.isDigit = true ∧ z.isDigit = true

/-- `b` begins with `.d` (which would extend a fraction-less match). -/
def startsWithFracDigit (b : List Char) : Prop :=
  ∃ x rest, b = '.' :: x :: rest ∧ x.isDigit = true

theorem takeWhile_append_all (p : Char → Bool) (l1 l2 : List Char)
    (h1 : ∀ c ∈ l1, p c = true) (h2 : ∀ c, l2.head? = some c → p c = false) :
    (l1 ++ l2).takeWhile p = l1 ∧ (l1 ++ l2).dropWhile p = l2 := by
  induction l1 with
  | nil =>
      cases l2 with
      | nil => exact ⟨rfl, rfl⟩
      | cons c r =>
          have := h2 c rfl
          simp [List.takeWhile, List.dropWhile, this]
  | cons c l1' ih =>
      have hc := h1 c (List.mem_cons_self c l1')
      have := ih (fun u hu => h1 u (List.mem_cons_of_mem c hu))
      simp [List.takeWhile, List.dropWhile, hc, this.1, this.2]

theorem matchGroups_eq_nil (cs : List Char) (h : ¬ startsWithCommaGroup cs) :
    matchGroups cs = ([], cs) := by
  rw [matchGroups.eq_def]
  split
  · next d1 d2 d3 rest =>
      rw [if_neg (fun hd => h ⟨d1, d2, d3, rest, rfl, hd.1, hd.2.1, hd.2.2⟩)]
  · rfl

theorem matchGroups_split (cs : List Char) :
    (matchGroups cs).1.flatten ++ (matchGroups cs).2 = cs := by
  rw [matchGroups.eq_def]
  split
  · next d1 d2 d3 rest =>
      by_cases hd : d1.isDigit = true ∧ d2.isDigit = true ∧ d3.isDigit = true
      · rw [if_pos hd]
        have ih := matchGroups_split rest
        simpa using ih
      · rw [if_neg hd]
        rfl
  · rfl
termination_by cs.length

theorem matchNumToken_none_head (cs : List Char)
    (h : ∀ c, (cs.dropWhile Char.isDigit).head? = some c → c ≠ ',') :
    matchNumToken cs = none := by
  unfold matchNumToken
  by_cases hds : cs.takeWhile Char.isDigit = [] ∨ 3 < (cs.takeWhile Char.isDigit).length
  · simp only [if_pos hds]
  · rw [if_neg hds]
    have hng : ¬ startsWithCommaGroup (cs.dropWhile Char.isDigit) := by
      rintro ⟨x, y, z, rest, heq, -, -, -⟩
      exact h ',' (by rw [heq]; rfl) rfl
    simp [matchGroups_eq_nil _ hng]

/-- A comma-free string contains no match at all. -/
theorem matchNumToken_none_of_no_comma (cs : List Char) (h : ',' ∉ cs) :
    matchNumToken cs = none := by
  apply matchNumToken_none_head
  intro c hc hcomma
  subst hcomma
  have hmem : ',' ∈ cs.dropWhile Char.isDigit := by
    cases hd : cs.dropWhile Char.isDigit with
    | nil => rw [hd] at hc; cases hc
    | cons a r =>
        rw [hd] at hc
        cases hc
        exact List.mem_cons_self _ _
  exact h ((List.dropWhile_sublist Char.isDigit).mem hmem)

theorem fracAttempt_split (cs : List Char) (f r : List Char)
    (h : fracAttempt cs = some (f, r)) : f ++ r = cs := by
  unfold fracAttempt at h
  split at h
  · next rest =>
      by_cases hc : rest.takeWhile Char.isDigit ≠ [] ∧ lookaheadOk
          (rest.dropWhile Char.isDigit) = true
      · rw [if_pos hc] at h
        cases h
        simp [List.takeWhile_append_dropWhile]
      · rw [if_neg hc] at h
        cases h
  · cases h

theorem flatten_dropLast_getLast (gs : List (List Char)) (h : gs ≠ []) :
    gs.dropLast.flatten ++ gs.getLast h = gs.flatten := by
  conv_rhs => rw [← List.dropLast_append_getLast h]
  simp

theorem matchNumToken_split (cs tok r : List Char)
    (h : matchNumToken cs = some (tok, r)) : cs = tok ++ r ∧ tok ≠ [] := by
  unfold matchNumToken at h
  by_cases hds : cs.takeWhile Char.isDigit = [] ∨ 3 < (cs.takeWhile Char.isDigit).length
  · rw [if_pos hds] at h; cases h
  · rw [if_neg hds] at h
    have hdne : cs.takeWhile Char.isDigit ≠ [] := fun hh => hds (Or.inl hh)
    have hsplit1 : cs.takeWhile Char.isDigit ++ cs.dropWhile Char.isDigit = cs :=
      List.takeWhile_append_dropWhile Char.isDigit cs
    have hsplit2 := matchGroups_split (cs.dropWhile Char.isDigit)
    by_cases hgs : (matchGroups (cs.dropWhile Char.isDigit)).1 = []
    · rw [dif_pos hgs] at h; cases h
    · rw [dif_neg hgs] at h
      cases hfa : fracAttempt (matchGroups (cs.dropWhile Char.isDigit)).2 with
      | some p =>
          obtain ⟨f, r3⟩ := p
          rw [hfa] at h
          simp only [] at h
          cases h
          have hf := fracAttempt_split _ _ _ hfa
          refine ⟨?_, by simp [hdne]⟩
          conv_lhs => rw [← hsplit1, ← hsplit2, ← hf]
          simp
      | none =>
          rw [hfa] at h
          simp only [] at h
          by_cases hla : lookaheadOk (matchGroups (cs.dropWhile Char.isDigit)).2 = true
          · rw [if_pos hla] at h
            cases h
            refine ⟨?_, by simp [hdne]⟩
            conv_lhs => rw [← hsplit1, ← hsplit2]
            simp
          · rw [if_neg hla] at h
            by_cases hlen : 2 ≤ (matchGroups (cs.dropWhile Char.isDigit)).1.length
            · rw [if_pos hlen] at h
              cases h
              refine ⟨?_, by simp [hdne]⟩
              conv_lhs => rw [← hsplit1, ← hsplit2,
                ← flatten_dropLast_getLast (matchGroups
                  (cs.dropWhile Char.isDigit)).1 hgs]
              simp
            · rw [if_neg hlen] at h
              cases h

theorem normAux_fuel_irrelevant (n : Nat) :
    ∀ (m : Nat) (prev : Option Char) (cs : List Char),
      cs.length < n → cs.length < m →
      normAux n prev cs = normAux m prev cs := by
  induction n with
  | zero => intro m prev cs h1 h2; omega
  | succ n ih =>
      intro m prev cs h1 h2
      cases m with
      | zero => omega
      | succ m' =>
          cases cs with
          | nil => rfl
          | cons c rest =>
              have hlen : rest.length + 1 < n + 1 := by
                simpa using h1
              have hlen2 : rest.length + 1 < m' + 1 := by
                simpa using h2
              unfold normAux
              by_cases hlb : lookbehindOk prev = true
              · rw [if_pos hlb, if_pos hlb]
                cases hmt : matchNumToken (c :: rest) with
                | none =>
                    simp only []
                    rw [ih m' (some c) rest (by omega) (by omega)]
                | some p =>
                    obtain ⟨tok, r⟩ := p
                    obtain ⟨hsp, hne⟩ := matchNumToken_split _ _ _ hmt
                    have htok : 1 ≤ tok.length := by
                      cases tok with
                      | nil => exact absurd rfl hne
                      | cons a t => simp
                    have hr : r.length < rest.length + 1 := by
                      have : (c :: rest).length = tok.length + r.length := by
                        rw [hsp]; simp
                      simp only [List.length_cons] at this
                      omega
                    simp only []
                    rw [ih m' (some (tok.getLastD c)) r (by omega) (by omega)]
              · rw [if_neg hlb, if_neg hlb]
                rw [ih m' (some c) rest (by omega) (by omega)]

theorem isBoundaryChar_of_isDigit (c : Char) (h : c.isDigit = true) :
    isBoundaryChar c = true := by
  simp [isBoundaryChar, isWordChar, Char.isAlphanum, h]

theorem not_isDigit_of_not_boundary (c : Char) (h : isBoundaryChar c = false) :
    c.isDigit = false := by
  by_cases hd : c.isDigit = true
  · rw [isBoundaryChar_of_isDigit c hd] at h
    cases h
  · simpa using hd

theorem dropWhile_append_of_not_all (p : Char → Bool) (xs tail : List Char)
    (hne : xs ≠ []) (hlast : ∀ c, xs.getLast? = some c → p c = false) :
    (xs ++ tail).dropWhile p = xs.dropWhile p ++ tail ∧ xs.dropWhile p ≠ [] := by
  induction xs with
  | nil => exact absurd rfl hne
  | cons c xs' ih =>
      by_cases hc : p c = true
      · cases xs' with
        | nil =>
            have := hlast c rfl
            rw [this] at hc
            cases hc
        | cons b l =>
            have hlast' : ∀ u, (b :: l).getLast? = some u → p u = false := by
              intro u hu
              exact hlast u (by rw [List.getLast?_cons_cons]; exact hu)
            have := ih (by simp) hlast'
            constructor
            · simp only [List.cons_append, List.dropWhile, hc]
              exact this.1
            · simp only [List.dropWhile, hc]
              exact this.2
      · have hc' : p c = false := by simpa using hc
        constructor
        · simp [List.dropWhile, hc']
        · simp [List.dropWhile, hc']

theorem normAux_unfold_cons (n : Nat) (prev : Option Char) (c : Char)
    (rest : List Char) :
    normAux (n + 1) prev (c :: rest) =
      if lookbehindOk prev = true then
        match matchNumToken (c :: rest) with
        | some (tok, r) =>
            tok.filter (fun ch => ch ≠ ',') ++ normAux n (some (tok.getLastD c)) r
        | none => c :: normAux n (some c) rest
      else c :: normAux n (some c) rest := rfl

/-- The scan copies a comma-free prefix (not ending in a digit-or-boundary
character) verbatim: no match can start inside it. -/
theorem normAux_skips_clean (a : List Char) :
    ∀ (n : Nat) (prev : Option Char) (tail : List Char),
      ',' ∉ a →
      (∀ c, a.getLast? = some c → c.isDigit = false) →
      a.length ≤ n →
      normAux n prev (a ++ tail) =
        a ++ normAux (n - a.length) (a.getLast?.or prev) tail := by
  induction a with
  | nil =>
      intro n prev tail _ _ _
      simp
  | cons c a' ih =>
      intro n prev tail hnc hlast hlen
      cases n with
      | zero => simp at hlen
      | succ n' =>
          have hdw := dropWhile_append_of_not_all Char.isDigit (c :: a') tail
            (by simp) hlast
          rw [List.cons_append] at hdw
          have hmt : matchNumToken (c :: (a' ++ tail)) = none := by
            apply matchNumToken_none_head
            intro ch hch hcomma
            subst hcomma
            rw [hdw.1] at hch
            have hmem : ',' ∈ c :: a' := by
              cases hd : (c :: a').dropWhile Char.isDigit with
              | nil => exact absurd hd hdw.2
              | cons u r =>
                  rw [hd] at hch
                  simp only [List.cons_append, List.head?_cons,
                    Option.some.injEq] at hch
                  have hin : ',' ∈ (c :: a').dropWhile Char.isDigit := by
                    rw [hd, hch]
                    exact List.mem_cons_self _ _
                  exact (List.dropWhile_sublist Char.isDigit).mem hin
            exact hnc hmem
          have hlast' : ∀ u, a'.getLast? = some u → u.isDigit = false := by
            intro u hu
            cases a' with
            | nil => cases hu
            | cons b l =>
                exact hlast u (by rw [List.getLast?_cons_cons]; exact hu)
          have hnc' : ',' ∉ a' := fun hm => hnc (List.mem_cons_of_mem c hm)
          have hlen' : a'.length ≤ n' := by
            simp at hlen
            omega
          have hgetlast : (c :: a').getLast?.or prev = a'.getLast?.or (some c) := by
            cases a' with
            | nil => simp
            | cons b l =>
                rw [List.getLast?_cons_cons]
                cases hg : (b :: l).getLast? with
                | none => simp at hg
                | some u => simp [hg]
          have hfuel : n' + 1 - (c :: a').length = n' - a'.length := by
            simp
          have step : normAux (n' + 1) prev (c :: (a' ++ tail)) =
              c :: normAux n' (some c) (a' ++ tail) := by
            rw [normAux_unfold_cons]
            by_cases hlb : lookbehindOk prev = true
            · rw [if_pos hlb, hmt]
            · rw [if_neg hlb]
          rw [List.cons_append, step, ih n' (some c) tail hnc' hlast' hlen',
            hgetlast, hfuel, List.cons_append]

theorem startsWithCommaGroup_head {cs : List Char} (h : startsWithCommaGroup cs) :
    cs.head? = some ',' := by
  obtain ⟨x, y, z, rest, heq, -, -, -⟩ := h
  rw [heq]
  rfl

/-- Well-shaped groups are consumed exactly, stopping at a remainder that
does not begin with another group. -/
theorem matchGroups_exact (gs : List (List Char)) (rest : List Char)
    (hshape : ∀ gr ∈ gs, ∃ x y z, gr = [',', x, y, z] ∧
      x.isDigit = true ∧ y.isDigit = true ∧ z.isDigit = true)
    (hrest : ¬ startsWithCommaGroup rest) :
    matchGroups (gs.flatten ++ rest) = (gs, rest) := by
  induction gs with
  | nil =>
      simpa using matchGroups_eq_nil rest hrest
  | cons gr gs' ih =>
      obtain ⟨x, y, z, hgr, hx, hy, hz⟩ := hshape gr (List.mem_cons_self gr gs')
      subst hgr
      have ih' := ih (fun u hu => hshape u (List.mem_cons_of_mem _ hu))
      rw [List.flatten_cons]
      have : ([',', x, y, z] : List Char) ++ gs'.flatten ++ rest =
          ',' :: x :: y :: z :: (gs'.flatten ++ rest) := by simp
      rw [this, matchGroups, if_pos ⟨hx, hy, hz⟩, ih']

theorem fracAttempt_cons_dot (rest : List Char) :
    fracAttempt ('.' :: rest) =
      if rest.takeWhile Char.isDigit ≠ [] ∧
          lookaheadOk (rest.dropWhile Char.isDigit) = true then
        some ('.' :: rest.takeWhile Char.isDigit, rest.dropWhile Char.isDigit)
      else none := rfl

theorem fracAttempt_none_of (b : List Char) (h : ¬ startsWithFracDigit b) :
    fracAttempt b = none := by
  unfold fracAttempt
  split
  · next rest =>
      have hcond : ¬(rest.takeWhile Char.isDigit ≠ [] ∧
          lookaheadOk (rest.dropWhile Char.isDigit) = true) := by
        rintro ⟨hne, -⟩
        cases rest with
        | nil => exact hne rfl
        | cons x r =>
            by_cases hx : x.isDigit = true
            · exact h ⟨x, r, rfl, hx⟩
            · have hx' : Char.isDigit x = false := by simpa using hx
              have : (x :: r).takeWhile Char.isDigit = [] := by
                simp [List.takeWhile_cons, hx']
              exact hne this
      rw [if_neg hcond]
  · rfl

theorem head_not_digit_of_lookahead (b : List Char) (h : lookaheadOk b = true) :
    ∀ c, b.head? = some c → c.isDigit = false := by
  intro c hc
  cases b with
  | nil => cases hc
  | cons x r =>
      cases hc
      unfold lookaheadOk at h
      simp only [Bool.not_eq_true'] at h
      exact not_isDigit_of_not_boundary _ h

/-- A well-formed grouped-number token, in a context whose right boundary
neither extends the match nor fails the lookahead, matches exactly. -/
theorem matchNumToken_render (g : GroupedNum) (b : List Char)
    (hwf : g.wf) (hla : lookaheadOk b = true)
    (hge : ¬ startsWithCommaGroup b)
    (hfe : g.fracPart = none → ¬ startsWithFracDigit b) :
    matchNumToken (g.render ++ b) = some (g.render, b) := by
  obtain ⟨hint_ne, hint_len, hint_dig, hgs_ne, hgs_shape, hfrac⟩ := hwf
  set fracR : List Char :=
    (match g.fracPart with | some f => '.' :: f | none => []) with hfracR
  have hflat_head : ∀ c, (g.groups.flatten ++ (fracR ++ b)).head? = some c →
      Char.isDigit c = false := by
    intro c hc
    cases hg : g.groups with
    | nil => exact absurd hg hgs_ne
    | cons gr gs' =>
        obtain ⟨x, y, z, hgr, -, -, -⟩ := hgs_shape gr (hg ▸ List.mem_cons_self gr gs')
        rw [hg, List.flatten_cons, hgr] at hc
        simp at hc
        rw [← hc]
        rfl
  have hsplit := takeWhile_append_all Char.isDigit g.intPart
    (g.groups.flatten ++ (fracR ++ b)) hint_dig hflat_head
  have hrender : g.render ++ b = g.intPart ++ (g.groups.flatten ++ (fracR ++ b)) := by
    rw [GroupedNum.render, ← hfracR]
    simp
  have hfracR_nogroup : ¬ startsWithCommaGroup (fracR ++ b) := by
    cases hf : g.fracPart with
    | some f =>
        intro hc
        have := startsWithCommaGroup_head hc
        rw [hfracR, hf] at this
        simp at this
    | none =>
        rw [hfracR, hf]
        simpa using hge
  have hmg : matchGroups ((g.render ++ b).dropWhile Char.isDigit) =
      (g.groups, fracR ++ b) := by
    rw [hrender, hsplit.2]
    exact matchGroups_exact g.groups (fracR ++ b) hgs_shape hfracR_nogroup
  have htw : (g.render ++ b).takeWhile Char.isDigit = g.intPart := by
    rw [hrender, hsplit.1]
  unfold matchNumToken
  have hcond1 : ¬((g.render ++ b).takeWhile Char.isDigit = [] ∨
      3 < ((g.render ++ b).takeWhile Char.isDigit).length) := by
    rw [htw]
    push_neg
    exact ⟨hint_ne, hint_len⟩
  rw [if_neg hcond1]
  have hcond2 : ¬((matchGroups ((g.render ++ b).dropWhile Char.isDigit)).1 = []) := by
    rw [hmg]
    exact hgs_ne
  rw [dif_neg hcond2]
  cases hf : g.fracPart with
  | some f =>
      obtain ⟨hf_ne, hf_dig⟩ := hfrac f hf
      have hfr : fracR = '.' :: f := by rw [hfracR, hf]
      have hfsplit := takeWhile_append_all Char.isDigit f b hf_dig
        (head_not_digit_of_lookahead b hla)
      have hcond3 : (f ++ b).takeWhile Char.isDigit ≠ [] ∧
          lookaheadOk ((f ++ b).dropWhile Char.isDigit) = true := by
        constructor
        · rw [hfsplit.1]; exact hf_ne
        · rw [hfsplit.2]; exact hla
      have hfa : fracAttempt ((matchGroups
          ((g.render ++ b).dropWhile Char.isDigit)).2) = some ('.' :: f, b) := by
        rw [hmg]
        show fracAttempt (fracR ++ b) = some ('.' :: f, b)
        rw [hfr, List.cons_append, fracAttempt_cons_dot, if_pos hcond3,
          hfsplit.1, hfsplit.2]
      simp only [hfa]
      rw [htw, hmg]
      show some (g.intPart ++ g.groups.flatten ++ ('.' :: f), b) =
        some (g.render, b)
      rw [GroupedNum.render, hf]
  | none =>
      have hfr : fracR = [] := by rw [hfracR, hf]
      have hfa : fracAttempt ((matchGroups
          ((g.render ++ b).dropWhile Char.isDigit)).2) = none := by
        rw [hmg]
        show fracAttempt (fracR ++ b) = none
        rw [hfr, List.nil_append]
        exact fracAttempt_none_of b (hfe hf)
      have hcond3 : lookaheadOk ((matchGroups
          ((g.render ++ b).dropWhile Char.isDigit)).2) = true := by
        rw [hmg]
        show lookaheadOk (fracR ++ b) = true
        rw [hfr, List.nil_append]
        exact hla
      simp only [hfa]
      rw [if_pos hcond3, htw, hmg, hfr]
      show some (g.intPart ++ g.groups.flatten, [] ++ b) = some (g.render, b)
      rw [GroupedNum.render, hf]
      simp

/-- A comma-free string is returned verbatim: every match of the pattern
contains at least one comma. -/
theorem normAux_id_of_no_comma (n : Nat) :
    ∀ (prev : Option Char) (cs : List Char), ',' ∉ cs →
      normAux n prev cs = cs := by
  induction n with
  | zero => intro prev cs _; rfl
  | succ n ih =>
      intro prev cs hnc
      cases cs with
      | nil => rfl
      | cons c rest =>
          have hrest : ',' ∉ rest := fun hm => hnc (List.mem_cons_of_mem c hm)
          rw [normAux_unfold_cons]
          by_cases hlb : lookbehindOk prev = true
          · rw [if_pos hlb, matchNumToken_none_of_no_comma _ hnc, ih (some c) rest hrest]
          · rw [if_neg hlb, ih (some c) rest hrest]

theorem getLastD_of_ne_nil (l : List Char) (h : l ≠ []) (d1 d2 : Char) :
    l.getLastD d1 = l.getLastD d2 := by
  rw [List.getLastD_eq_getLast?, List.getLastD_eq_getLast?]
  cases hg : l.getLast? with
  | none =>
      rw [List.getLast?_eq_none_iff] at hg
      exact absurd hg h
  | some u => rfl

theorem render_ne_nil (g : GroupedNum) (hwf : g.wf) : g.render ≠ [] := by
  obtain ⟨hint_ne, -, -, -, -, -⟩ := hwf
  rw [GroupedNum.render]
  simp [hint_ne]

/-- In boundary-safe context, the scan consumes the whole token, emits it
with its commas removed, and resumes after it. -/
theorem normAux_token_step (n : Nat) (prev : Option Char) (g : GroupedNum)
    (b : List Char) (hwf : g.wf) (hla : lookaheadOk b = true)
    (hge : ¬ startsWithCommaGroup b)
    (hfe : g.fracPart = none → ¬ startsWithFracDigit b)
    (hlb : lookbehindOk prev = true) :
    normAux (n + 1) prev (g.render ++ b) =
      g.render.filter (fun c => c ≠ ',') ++
        normAux n (some (g.render.getLastD '0')) b := by
  have hne := render_ne_nil g hwf
  obtain ⟨c, rest, hc⟩ : ∃ c rest, g.render ++ b = c :: rest := by
    cases hr : g.render with
    | nil => exact absurd hr hne
    | cons c cs => exact ⟨c, cs ++ b, List.cons_append c cs b⟩
  rw [hc, normAux_unfold_cons, if_pos hlb, ← hc]
  simp only [matchNumToken_render g b hwf hla hge hfe]
  rw [getLastD_of_ne_nil g.render hne c '0']

/-- C7 amended: `_normalize_number_separators` removes the internal commas of
every numeric token of the form `\d{1,3}(,\d{3})+(\.\d+)?` whose immediately
preceding and following characters are not word characters, double quotes or
single quotes — regardless of whether the token lies inside a quoted string —
and a document containing no comma at all (hence no candidate token) is
returned unchanged.  The second conjunct states the action compositionally:
a comma-free prefix `a` with an admissible right end, a well-formed grouped
number, and a continuation `b` that neither extends the match nor fails the
lookahead. -/
theorem normalize_strips_unquoted_grouped_numbers :
    (∀ s : String, ',' ∉ s.data → normalize_number_separators s = s) ∧
    (∀ (a b : List Char) (g : GroupedNum),
      g.wf → ',' ∉ a → lookbehindOk a.getLast? = true →
      lookaheadOk b = true → ¬ startsWithCommaGroup b →
      (g.fracPart = none → ¬ startsWithFracDigit b) →
      normRun none (a ++ (g.render ++ b)) =
        a ++ (g.render.filter (fun c => c ≠ ',') ++
          normRun (some (g.render.getLastD '0')) b)) := by
  constructor
  · intro s hs
    unfold normalize_number_separators normRun
    rw [normAux_id_of_no_comma _ none s.data hs]
  · intro a b g hwf hnc hlb hla hge hfe
    have hlast_nodigit : ∀ c, a.getLast? = some c → c.isDigit = false := by
      intro c hcc
      have hb : lookbehindOk (some c) = true := by rw [← hcc]; exact hlb
      unfold lookbehindOk at hb
      simp only [Bool.not_eq_true'] at hb
      exact not_isDigit_of_not_boundary c hb
    have hrl : 1 ≤ g.render.length := by
      cases hr : g.render with
      | nil => exact absurd hr (render_ne_nil g hwf)
      | cons c cs => simp
    unfold normRun
    rw [normAux_skips_clean a _ none (g.render ++ b) hnc hlast_nodigit
      (by simp [List.length_append]; omega)]
    have hor : a.getLast?.or none = a.getLast? := by
      cases a.getLast? <;> rfl
    have h1 : (a ++ (g.render ++ b)).length + 1 - a.length =
        (g.render.length + b.length) + 1 := by
      simp only [List.length_append]
      omega
    rw [hor, h1,
      normAux_token_step (g.render.length + b.length) a.getLast? g b hwf hla
        hge hfe hlb,
      normAux_fuel_irrelevant (g.render.length + b.length) (b.length + 1)
        (some (g.render.getLastD '0')) b (by omega) (by omega)]

/-- Witness for the amended C7 at concrete inputs: `" 1,234 "` has its comma
removed, and a comma-free string passes through unchanged. -/
theorem normalize_strips_unquoted_grouped_numbers_witness :
    normalize_number_separators "ab" = "ab" ∧
    normRun none (([' '] : List Char) ++
        ((⟨['1'], [[',', '2', '3', '4']], none⟩ : GroupedNum).render ++ [' '])) =
      [' '] ++
        ((⟨['1'], [[',', '2', '3', '4']], none⟩ : GroupedNum).render.filter
            (fun c => c ≠ ',') ++
          normRun (some ((⟨['1'], [[',', '2', '3', '4']], none⟩ :
            GroupedNum).render.getLastD '0')) [' ']) := by
  refine ⟨normalize_strips_unquoted_grouped_numbers.1 "ab" (by decide),
    normalize_strips_unquoted_grouped_numbers.2 [' '] [' ']
      ⟨['1'], [[',', '2', '3', '4']], none⟩
      ⟨by decide, by decide, by decide, by decide, ?_, ?_⟩
      (by decide) (by decide) (by decide) ?_ ?_⟩
  · intro gr hgr
    simp only [List.mem_singleton] at hgr
    subst hgr
    exact ⟨'2', '3', '4', rfl, by decide, by decide, by decide⟩
  · intro f hf
    cases hf
  · rintro ⟨x, y, z, rest, heq, -, -, -⟩
    simp at heq
  · rintro - ⟨x, rest, heq, -⟩
    simp at heq

/-! ## C6 — recovery of a fenced JSON block with a trailing comma -/

theorem stripTicks_none_of_head (c : Char) (l : List Char)
    (h : c ≠ backtickChar) : stripTicks (c :: l) = none := by
  cases l with
  | nil => rfl
  | cons b l2 =>
      cases l2 with
      | nil => rfl
      | cons d l3 =>
          show (if c = backtickChar ∧ b = backtickChar ∧ d = backtickChar
            then some l3 else none) = none
          rw [if_neg (fun hh => h hh.1)]

theorem fenceMatchAtJson_none_of_head (c : Char) (l : List Char)
    (h : c ≠ backtickChar) : fenceMatchAtJson (c :: l) = none := by
  unfold fenceMatchAtJson
  rw [stripTicks_none_of_head c l h]
  rfl

theorem searchJsonFence_cons (c : Char) (rest : List Char) :
    searchJsonFence (c :: rest) =
      match fenceMatchAtJson (c :: rest) with
      | some body => some body
      | none => searchJsonFence rest := rfl

/-- The leftmost search walks over any backtick-free prefix. -/
theorem searchJsonFence_append (pre : List Char) :
    ∀ rest : List Char, backtickChar ∉ pre →
      searchJsonFence (pre ++ rest) = searchJsonFence rest := by
  induction pre with
  | nil => intro rest _; rfl
  | cons c pre' ih =>
      intro rest hpre
      have hc : c ≠ backtickChar := fun hh => hpre (hh ▸ List.mem_cons_self c pre')
      rw [List.cons_append, searchJsonFence_cons,
        fenceMatchAtJson_none_of_head c (pre' ++ rest) hc]
      exact ih rest (fun hm => hpre (List.mem_cons_of_mem c hm))

theorem splitAtTicks_cons (c : Char) (rest : List Char) :
    splitAtTicks (c :: rest) =
      match stripTicks (c :: rest) with
      | some r => some (([] : List Char), r)
      | none =>
          match splitAtTicks rest with
          | some (body, r) => some (c :: body, r)
          | none => none := rfl

theorem splitAtTicks_append (pre : List Char) :
    ∀ rest : List Char, backtickChar ∉ pre →
      splitAtTicks (pre ++ rest) =
        match splitAtTicks rest with
        | some (body, r) => some (pre ++ body, r)
        | none => none := by
  induction pre with
  | nil =>
      intro rest _
      show splitAtTicks rest = _
      cases hs : splitAtTicks rest with
      | none => rfl
      | some p => cases p; rfl
  | cons c pre' ih =>
      intro rest hpre
      have hc : c ≠ backtickChar := fun hh => hpre (hh ▸ List.mem_cons_self c pre')
      rw [List.cons_append, splitAtTicks_cons,
        stripTicks_none_of_head c (pre' ++ rest) hc, ih rest
          (fun hm => hpre (List.mem_cons_of_mem c hm))]
      cases hs : splitAtTicks rest with
      | none => rfl
      | some p => cases p; rfl

/-- The tagged-fence pattern, applied at the fence itself, captures the block
body: everything up to the closing fence. -/
theorem fenceMatchAtJson_at_fence (J : List Char)
    (hjb : backtickChar ∉ J) (hne : J ≠ [])
    (hhead : ∀ c rest, J = c :: rest → isPyWs c = false) :
    fenceMatchAtJson (("```json\n".data) ++ (J ++ ("\n```".data))) =
      some (J ++ ['\n']) := by
  have hdata : ("```json\n".data) ++ (J ++ ("\n```".data)) =
      '`' :: '`' :: '`' :: 'j' :: 's' :: 'o' :: 'n' :: '\n' ::
        (J ++ ('\n' :: '`' :: '`' :: '`' :: [])) := rfl
  rw [hdata]
  have htake : (J ++ ('\n' :: '`' :: '`' :: '`' :: [])).takeWhile isPyWs = [] := by
    cases hJ : J with
    | nil => exact absurd hJ hne
    | cons c rest =>
        have hw := hhead c rest hJ
        rw [List.cons_append, List.takeWhile_cons, hw]
        rfl
  have hdrop : (J ++ ('\n' :: '`' :: '`' :: '`' :: [])).dropWhile isPyWs =
      J ++ ('\n' :: '`' :: '`' :: '`' :: []) := by
    cases hJ : J with
    | nil => exact absurd hJ hne
    | cons c rest =>
        have hw := hhead c rest hJ
        rw [List.cons_append, List.dropWhile_cons, hw]
        rfl
  unfold fenceMatchAtJson
  have h1 : stripTicks ('`' :: '`' :: '`' :: 'j' :: 's' :: 'o' :: 'n' :: '\n' ::
      (J ++ ('\n' :: '`' :: '`' :: '`' :: []))) =
      some ('j' :: 's' :: 'o' :: 'n' :: '\n' ::
        (J ++ ('\n' :: '`' :: '`' :: '`' :: []))) := by
    show (if ('`' : Char) = backtickChar ∧ ('`' : Char) = backtickChar ∧
        ('`' : Char) = backtickChar then
      some ('j' :: 's' :: 'o' :: 'n' :: '\n' ::
        (J ++ ('\n' :: '`' :: '`' :: '`' :: []))) else none) = _
    rw [if_pos ⟨rfl, rfl, rfl⟩]
  have h2 : ('j' :: 's' :: 'o' :: 'n' :: '\n' ::
      (J ++ ('\n' :: '`' :: '`' :: '`' :: []))).dropWhile isPyWs =
      'j' :: 's' :: 'o' :: 'n' :: '\n' :: (J ++ ('\n' :: '`' :: '`' :: '`' :: [])) := by
    rw [List.dropWhile_cons]
    rfl
  have h3 : consumeJsonCI ('j' :: 's' :: 'o' :: 'n' :: '\n' ::
      (J ++ ('\n' :: '`' :: '`' :: '`' :: []))) =
      some ('\n' :: (J ++ ('\n' :: '`' :: '`' :: '`' :: []))) := by
    show (if ('j' : Char).toLower = 'j' ∧ ('s' : Char).toLower = 's' ∧
        ('o' : Char).toLower = 'o' ∧ ('n' : Char).toLower = 'n' then
      some ('\n' :: (J ++ ('\n' :: '`' :: '`' :: '`' :: []))) else none) = _
    rw [if_pos ⟨by decide, by decide, by decide, by decide⟩]
  have h4 : wsThenLastNewline ('\n' :: (J ++ ('\n' :: '`' :: '`' :: '`' :: []))) =
      some (J ++ ('\n' :: '`' :: '`' :: '`' :: [])) := by
    unfold wsThenLastNewline
    have hrun : ('\n' :: (J ++ ('\n' :: '`' :: '`' :: '`' :: []))).takeWhile isPyWs
        = ['\n'] := by
      rw [List.takeWhile_cons]
      have : isPyWs '\n' = true := rfl
      rw [this, if_pos rfl, htake]
    have hrest : ('\n' :: (J ++ ('\n' :: '`' :: '`' :: '`' :: []))).dropWhile isPyWs
        = J ++ ('\n' :: '`' :: '`' :: '`' :: []) := by
      rw [List.dropWhile_cons]
      have : isPyWs '\n' = true := rfl
      rw [this, if_pos rfl, hdrop]
    rw [hrun, hrest, if_pos (by decide)]
    rfl
  have h5 : splitAtTicks (J ++ ('\n' :: '`' :: '`' :: '`' :: [])) =
      some (J ++ ['\n'], []) := by
    rw [splitAtTicks_append J _ hjb]
    have hs : splitAtTicks ('\n' :: '`' :: '`' :: '`' :: []) = some (['\n'], []) := rfl
    rw [hs]
  rw [h1]
  simp only [Option.bind_eq_bind, Option.some_bind]
  rw [h2, h3]
  simp only [Option.some_bind]
  rw [h4]
  simp only [Option.some_bind]
  rw [h5]
  rfl

/-- C6: a model response consisting of backtick-free leading commentary
followed by a ```json fenced block whose body `J` is a JSON object except for
trailing commas (it fails to parse as-is, and its trailing-comma-repaired
form parses, untouched by number normalisation) is recovered by
`_parse_response_json` through fenced-block extraction plus trailing-comma
repair, yielding exactly the record obtained by parsing the clean form of
`J` directly. -/
theorem fenced_trailing_comma_recovery (commentary J : String) (v : JVal)
    (hcb : backtickChar ∉ commentary.data)
    (hjb : backtickChar ∉ J.data)
    (hne : J.data ≠ [])
    (hhead : ∀ c rest, J.data = c :: rest → isPyWs c = false)
    (hstrip : pythonStrip (J ++ "\n") = J)
    (h1 : json_loads (commentary ++ "```json\n" ++ J ++ "\n```") = none)
    (h2 : json_loads (strip_code_fences
      (commentary ++ "```json\n" ++ J ++ "\n```")) = none)
    (h3 : json_loads J = none)
    (h4 : normalize_number_separators (remove_trailing_commas J) =
      remove_trailing_commas J)
    (h5 : json_loads (remove_trailing_commas J) = some v) :
    parse_response_json (commentary ++ "```json\n" ++ J ++ "\n```") = .ok v := by
  have hdata : (commentary ++ "```json\n" ++ J ++ "\n```").data =
      commentary.data ++ (("```json\n".data) ++ (J.data ++ ("\n```".data))) := by
    simp [String.data_append]
  have hsearch : searchJsonFence
      ((commentary ++ "```json\n" ++ J ++ "\n```").data) =
      some (J.data ++ ['\n']) := by
    rw [hdata, searchJsonFence_append commentary.data _ hcb]
    have hfm := fenceMatchAtJson_at_fence J.data hjb hne hhead
    have hcons : ("```json\n".data) ++ (J.data ++ ("\n```".data)) =
        '`' :: (("``json\n".data) ++ (J.data ++ ("\n```".data))) := rfl
    rw [hcons, searchJsonFence_cons, ← hcons, hfm]
  have hfence : extract_json_from_fenced_block
      (commentary ++ "```json\n" ++ J ++ "\n```") = some J := by
    unfold extract_json_from_fenced_block
    rw [hsearch]
    show some (pythonStrip (String.mk (J.data ++ ['\n']))) = some J
    have hmk : String.mk (J.data ++ ['\n']) = J ++ "\n" := by
      apply String.ext
      simp [String.data_append]
    rw [hmk, hstrip]
  have hJne : J ≠ "" := by
    intro hh
    rw [hh] at hne
    exact hne rfl
  simp only [parse_response_json, h1, h2, hfence]
  rw [if_pos hJne]
  simp only [h3, h4, h5]

/-- Witness for C6 at the concrete response
`"Sure! ```json\n{"a": 1,}\n```"`. -/
theorem fenced_trailing_comma_recovery_witness :
    parse_response_json
        ("Sure! " ++ "```json\n" ++ "\x7b\"a\": 1,\x7d" ++ "\n```") =
      .ok (JVal.obj [("a", JVal.num 1)]) :=
  fenced_trailing_comma_recovery "Sure! " "\x7b\"a\": 1,\x7d"
    (JVal.obj [("a", JVal.num 1)])
    (by decide) (by decide) (by decide)
    (by intro c rest h; cases h; rfl)
    (by rfl) (by rfl) (by with_unfolding_all rfl) (by rfl) (by rfl)
    (by with_unfolding_all rfl)

end BankParser
